import Mathlib

/-!
Verification of the ncbf-music-manager presentation-text extractor.

Shallow embedding of the core Rust crates:
  crates/core/src/normalize.rs  (text normalizer, similarity, title detection)
  crates/core/src/types.rs      (document model, format detection)
  crates/ppt/src/parser.rs      (legacy binary record traversal, slide assembly)
  crates/pptx/src/parser.rs     (modern container slide ordering)

Modelling conventions:
  - Rust String is modelled as List Char (a sequence of Unicode scalar values);
    Rust byte length String.len() is modelled by summing Char.utf8Size.
  - Rust f64 similarity arithmetic (exact small-integer divisions) is modelled
    by exact rational arithmetic over Rat; the 0.7 threshold becomes 7/10.
  - Rust Unicode character classes (is_alphabetic, is_alphanumeric,
    to_lowercase, is_whitespace) are modelled exactly on the Basic Latin and
    Latin-1 ranges, which cover every concrete input considered here; the
    universally quantified theorems do not depend on the classification of
    code points outside these ranges because both sides of each equality use
    the same predicates.
  - Byte buffers are List Nat with every element < 256 where it matters;
    out-of-bounds indexing (a Rust panic) is modelled by Option-valued reads.
-/

/-- Straight apostrophe, U+0027 (written via its code point to keep the
character data of the development in one style). -/
def apoCh : Char := Char.ofNat 39

/-- Backtick, U+0060. -/
def backtickCh : Char := Char.ofNat 96

/-- Right single quotation mark, U+2019. -/
def rsqCh : Char := Char.ofNat 0x2019

/-- Left single quotation mark, U+2018. -/
def lsqCh : Char := Char.ofNat 0x2018

/-- The Unicode White_Space code points: model of Rust char::is_whitespace. -/
def rsIsWhitespace (c : Char) : Bool :=
  [9, 10, 11, 12, 13, 32, 0x85, 0xA0, 0x1680,
   0x2000, 0x2001, 0x2002, 0x2003, 0x2004, 0x2005, 0x2006, 0x2007,
   0x2008, 0x2009, 0x200A, 0x2028, 0x2029, 0x202F, 0x205F, 0x3000].contains c.toNat

/-- Model of Rust char::is_alphabetic, exact on Basic Latin and Latin-1:
ASCII letters plus the Latin-1 letters (0xAA, 0xB5, 0xBA, 0xC0..0xFF except
the multiplication and division signs 0xD7, 0xF7). -/
def rsIsAlphabetic (c : Char) : Bool :=
  (65 ≤ c.toNat ∧ c.toNat ≤ 90) ∨ (97 ≤ c.toNat ∧ c.toNat ≤ 122) ∨
  c.toNat = 0xAA ∨ c.toNat = 0xB5 ∨ c.toNat = 0xBA ∨
  (0xC0 ≤ c.toNat ∧ c.toNat ≤ 0xFF ∧ c.toNat ≠ 0xD7 ∧ c.toNat ≠ 0xF7)

/-- Model of Rust char::is_alphanumeric (alphabetic or Unicode number),
exact on Basic Latin and Latin-1: adds the ASCII digits and the Latin-1
numeric signs (superscripts 0xB2, 0xB3, 0xB9 and fractions 0xBC, 0xBD, 0xBE). -/
def rsIsAlphanumeric (c : Char) : Bool :=
  rsIsAlphabetic c ∨ (48 ≤ c.toNat ∧ c.toNat ≤ 57) ∨
  c.toNat = 0xB2 ∨ c.toNat = 0xB3 ∨ c.toNat = 0xB9 ∨
  c.toNat = 0xBC ∨ c.toNat = 0xBD ∨ c.toNat = 0xBE

/-- Model of Rust str::to_lowercase, exact on Basic Latin and Latin-1
(simple one-to-one lowering; no Latin-1 input maps to a multi-character
lowercase expansion except U+00DF which is already lowercase). -/
def rsToLower (c : Char) : Char :=
  if 65 ≤ c.toNat ∧ c.toNat ≤ 90 then Char.ofNat (c.toNat + 32)
  else if 0xC0 ≤ c.toNat ∧ c.toNat ≤ 0xDE ∧ c.toNat ≠ 0xD7 then Char.ofNat (c.toNat + 32)
  else c

/-- Rust String::len of the UTF-8 encoding, as a sum of per-character sizes. -/
def utf8Len (s : List Char) : Nat := (s.map Char.utf8Size).sum

/-- PUNCTUATION_CHARS from crates/core/src/normalize.rs (the source list
holds the ASCII double quote three times; the duplicates are kept). -/
def punctuationChars : List Char :=
  [Char.ofNat 46, Char.ofNat 44, Char.ofNat 59, Char.ofNat 58, Char.ofNat 63, Char.ofNat 33,
   Char.ofNat 34, Char.ofNat 34, Char.ofNat 34,
   Char.ofNat 0x201E, Char.ofNat 0x201A,
   Char.ofNat 0xAB, Char.ofNat 0xBB, Char.ofNat 0x2039, Char.ofNat 0x203A,
   Char.ofNat 40, Char.ofNat 41, Char.ofNat 91, Char.ofNat 93,
   Char.ofNat 0x7b, Char.ofNat 0x7d, Char.ofNat 60, Char.ofNat 62,
   Char.ofNat 0x2014, Char.ofNat 0x2013, Char.ofNat 45,
   Char.ofNat 47, Char.ofNat 92, Char.ofNat 124,
   Char.ofNat 64, Char.ofNat 35, Char.ofNat 36, Char.ofNat 37, Char.ofNat 94,
   Char.ofNat 38, Char.ofNat 42, Char.ofNat 95, Char.ofNat 43, Char.ofNat 61,
   Char.ofNat 126, Char.ofNat 96]

/-- APOSTROPHE_CHARS from crates/core/src/normalize.rs. -/
def apostropheChars : List Char := [apoCh, rsqCh, lsqCh, backtickCh]

/-- Membership in PUNCTUATION_CHARS. -/
def isPunct (c : Char) : Bool := punctuationChars.contains c

/-- Membership in APOSTROPHE_CHARS. -/
def isApo (c : Char) : Bool := apostropheChars.contains c

/-- Whether an optional character is alphabetic (used for apostrophe
neighbour tests; none stands for the absence of a neighbour). -/
def optAlpha : Option Char → Bool
  | some c => rsIsAlphabetic c
  | none => false

/-- Line-ending unification of normalize_line: the sequential
replace of CRLF by LF followed by the replace of CR by LF, expressed as one
left-to-right pass (the two passes rewrite exactly the same occurrences). -/
def fixNewlines : List Char → List Char
  | [] => []
  | [c] => if c = Char.ofNat 13 then [Char.ofNat 10] else [c]
  | c :: d :: rest =>
    if c = Char.ofNat 13 then
      if d = Char.ofNat 10 then Char.ofNat 10 :: fixNewlines rest
      else Char.ofNat 10 :: fixNewlines (d :: rest)
    else c :: fixNewlines (d :: rest)

/-- The character pass of normalize_line: drop punctuation, keep an
apostrophe-class character (as the canonical straight apostrophe) only when
the characters immediately before and after it in the input are alphabetic.
The prev argument is the previous input character. -/
def phiAux (prev : Option Char) : List Char → List Char
  | [] => []
  | c :: rest =>
    if isPunct c then phiAux (some c) rest
    else if isApo c then
      (if optAlpha prev ∧ optAlpha rest.head? then apoCh :: phiAux (some c) rest
       else phiAux (some c) rest)
    else c :: phiAux (some c) rest

/-- The full character pass, starting with no previous character. -/
def phiPass (s : List Char) : List Char := phiAux none s

/-- Space or horizontal tab: the character class of WHITESPACE_COLLAPSE_REGEX. -/
def isSpaceTab (c : Char) : Bool := c.toNat = 32 ∨ c.toNat = 9

/-- replace_all of the regex ( and tab runs) by a single space: every maximal
run of spaces and tabs becomes one space. The flag records whether the
previous character belonged to a run that has already emitted its space. -/
def collapseAux (inRun : Bool) : List Char → List Char
  | [] => []
  | c :: rest =>
    if isSpaceTab c then
      (if inRun then collapseAux true rest else Char.ofNat 32 :: collapseAux true rest)
    else c :: collapseAux false rest

/-- Whitespace collapse starting outside a run. -/
def collapseWs (s : List Char) : List Char := collapseAux false s

/-- Drop trailing whitespace characters (the right half of Rust str::trim),
defined structurally. -/
def trimEnd : List Char → List Char
  | [] => []
  | c :: rest =>
    match trimEnd rest with
    | [] => if rsIsWhitespace c then [] else [c]
    | r => c :: r

/-- Rust str::trim: drop leading and trailing Unicode whitespace. -/
def rsTrim (s : List Char) : List Char := trimEnd (s.dropWhile rsIsWhitespace)

/-- Split on LF without dropping anything (an empty input yields one empty
segment, matching str::split semantics). -/
def splitOnNl : List Char → List (List Char)
  | [] => [[]]
  | c :: rest =>
    if c = Char.ofNat 10 then [] :: splitOnNl rest
    else
      match splitOnNl rest with
      | [] => [[c]]
      | seg :: segs => (c :: seg) :: segs

/-- Strip one trailing CR from a line (str::lines does this per line). -/
def stripTrailCR (l : List Char) : List Char :=
  match l.getLast? with
  | some c => if c = Char.ofNat 13 then l.dropLast else l
  | none => l

/-- Rust str::lines: split at LF, with a trailing LF not producing a final
empty line, and a trailing CR stripped from each line. -/
def rustLines (s : List Char) : List (List Char) :=
  if s = [] then []
  else
    (if s.getLast? = some (Char.ofNat 10) then (splitOnNl s).dropLast else splitOnNl s).map
      stripTrailCR

/-- Join a list of lines with LF separators. -/
def joinNl (ls : List (List Char)) : List Char := (ls.intersperse [Char.ofNat 10]).flatten

/-- TextNormalizer::normalize_line from crates/core/src/normalize.rs.
The Boolean argument is the preserve_line_breaks field. -/
def normalize_line (preserveLineBreaks : Bool) (text : List Char) : List Char :=
  let r := phiPass (fixNewlines text)
  if preserveLineBreaks then
    joinNl ((rustLines r).map (fun l => rsTrim (collapseWs l)))
  else
    rsTrim (collapseWs r)

/-- TextNormalizer::normalize_to_lines: normalize, split into lines, trim
each line and drop the empty ones. -/
def normalize_to_lines (preserveLineBreaks : Bool) (text : List Char) : List (List Char) :=
  ((rustLines (normalize_line preserveLineBreaks text)).map rsTrim).filter
    (fun l => l ≠ [])

/-- Worker for splitWs: cur is the reversed word fragment being read. -/
def splitWsAux (cur : List Char) : List Char → List (List Char)
  | [] => if cur = [] then [] else [cur.reverse]
  | c :: rest =>
    if rsIsWhitespace c then
      (if cur = [] then splitWsAux [] rest else cur.reverse :: splitWsAux [] rest)
    else splitWsAux (c :: cur) rest

/-- Split at Unicode whitespace, discarding empty fragments: model of
Rust str::split_whitespace. -/
def splitWs (s : List Char) : List (List Char) := splitWsAux [] s

/-- Whether the first list is a prefix of the second (Boolean, executable). -/
def isPrefixB {α : Type} [DecidableEq α] : List α → List α → Bool
  | [], _ => true
  | _ :: _, [] => false
  | a :: as, b :: bs => a = b ∧ isPrefixB as bs

/-- Whether pat occurs as a contiguous run inside s: model of Rust
str::contains with a string pattern (char-aligned search, which coincides
with UTF-8 byte-aligned search). -/
def isSubstring {α : Type} [DecidableEq α] (pat : List α) : List α → Bool
  | [] => pat.isEmpty
  | b :: rest => isPrefixB pat (b :: rest) ∨ isSubstring pat rest

/-- Join word fragments with single spaces. -/
def joinSp (ls : List (List Char)) : List Char := (ls.intersperse [Char.ofNat 32]).flatten

/-- normalize_for_comparison from crates/core/src/normalize.rs: keep only
alphanumeric and whitespace characters, lowercase, collapse whitespace by
splitting into words and re-joining with single spaces. -/
def normalize_for_comparison (text : List Char) : List Char :=
  joinSp (splitWs ((text.filter (fun c => rsIsAlphanumeric c ∨ rsIsWhitespace c)).map rsToLower))

/-- The set of whitespace-separated words of a string (model of the
HashSet of str slices built by calculate_similarity). -/
def wordSet (s : List Char) : Finset (List Char) := (splitWs s).toFinset

/-- calculate_similarity from crates/core/src/normalize.rs. Rust f64
division of exact small integers is modelled by exact rational division;
String::len is UTF-8 byte length; String::contains is substring search
(char-aligned, which coincides with byte-aligned search on UTF-8). -/
def calculate_similarity (a b : List Char) : Rat :=
  if a = [] ∨ b = [] then 0
  else if a = b then 1
  else if isSubstring b a ∨ isSubstring a b then
    ((min (utf8Len a) (utf8Len b) : Nat) : Rat) / ((max (utf8Len a) (utf8Len b) : Nat) : Rat)
  else
    let wa := wordSet a
    let wb := wordSet b
    if wa = ∅ ∨ wb = ∅ then 0
    else ((wa ∩ wb).card : Rat) / ((wa ∪ wb).card : Rat)

/-- is_likely_title from crates/core/src/normalize.rs: reject
comparison-normalized text of byte length below 2 or above 60, accept at
similarity at least 0.7. -/
def is_likely_title (text nf : List Char) : Bool :=
  let nt := normalize_for_comparison text
  if utf8Len nt < 2 then false
  else if 60 < utf8Len nt then false
  else (7 : Rat) / 10 ≤ calculate_similarity nt nf

/-- Case-insensitive match of a lowercase pattern word against the head of
a string; returns the remainder on success. -/
def matchWordCI : List Char → List Char → Option (List Char)
  | [], s => some s
  | _ :: _, [] => none
  | w :: ws, c :: cs => if rsToLower c = w then matchWordCI ws cs else none

/-- The alternatives of FILENAME_SUFFIX_REGEX, with the optional plural
endings expanded. -/
def suffixWords : List (List Char) :=
  [String.toList "lyrics", String.toList "lyric", String.toList "slides",
   String.toList "slide", String.toList "slideshow", String.toList "presentation",
   String.toList "ppt", String.toList "pptx", String.toList "worship",
   String.toList "song"]

/-- Whether a tail of the filename matches the whole suffix pattern
(optional whitespace, optional dash or underscore, optional whitespace, one
of the label words, trailing whitespace, end of string). -/
def suffixTailMatch (s : List Char) : Bool :=
  let s1 := s.dropWhile rsIsWhitespace
  let s2 := match s1 with
            | c :: rest => if c = Char.ofNat 45 ∨ c = Char.ofNat 95 then rest else s1
            | [] => s1
  let s3 := s2.dropWhile rsIsWhitespace
  suffixWords.any (fun w =>
    match matchWordCI w s3 with
    | some rest => rest.all rsIsWhitespace
    | none => false)

/-- replace_all of FILENAME_SUFFIX_REGEX by the empty string: since every
match of the end-anchored pattern extends to the end of the string, this
removes the suffix starting at the leftmost matching position. -/
def stripFilenameSuffix : List Char → List Char
  | [] => []
  | c :: rest => if suffixTailMatch (c :: rest) then [] else c :: stripFilenameSuffix rest

/-- String::rsplit_once at the dot: the filename without its extension
(unchanged when there is no dot). -/
def rsplitOnceDot (s : List Char) : List Char :=
  if s.contains (Char.ofNat 46) then
    (((s.reverse).dropWhile (fun c => c ≠ Char.ofNat 46)).drop 1).reverse
  else s

/-- extract_song_name_from_filename from crates/core/src/normalize.rs. -/
def extract_song_name_from_filename (filename : List Char) : List Char :=
  normalize_for_comparison (stripFilenameSuffix (rsplitOnceDot filename))

/-- Text content of one shape or text frame (SlideText from
crates/core/src/types.rs; the optional position pair is omitted, no claim
under verification depends on it). -/
structure SlideText where
  text : List Char
deriving DecidableEq

/-- A single extracted slide (ExtractedSlide from crates/core/src/types.rs;
the optional notes field is omitted, no claim under verification depends
on it). -/
structure ExtractedSlide where
  number : Nat
  lines : List SlideText
deriving DecidableEq

/-- The title-scanning loop of normalize_presentation_with_title: walk the
first slide lines in order, return the index of the first line whose
trimmed raw text passes is_likely_title, together with that line
normalized. -/
def findTitle (pf : Bool) (nf : List Char) : Nat → List SlideText → Option (Nat × List Char)
  | _, [] => none
  | i, t :: rest =>
    let raw := rsTrim t.text
    if is_likely_title raw nf then some (i, normalize_line pf raw)
    else findTitle pf nf (i + 1) rest

/-- normalize_presentation_with_title from crates/core/src/normalize.rs:
detect at most one title on the first slide, exclude it, and collect the
normalized lines of every remaining text run in slide order then run
order. -/
def normalize_presentation_with_title (pf : Bool) (slides : List ExtractedSlide)
    (filename : List Char) : Option (List Char) × List (List Char) :=
  let nf := extract_song_name_from_filename filename
  let found : Option (Nat × List Char) :=
    match slides.head? with
    | some s1 => findTitle pf nf 0 s1.lines
    | none => none
  let titleIdxs : List Nat := match found with | some p => [p.1] | none => []
  let allLines := (slides.enum.map (fun p =>
      (p.2.lines.enum.map (fun q =>
          if p.1 = 0 ∧ titleIdxs.contains q.1 then []
          else normalize_to_lines pf q.2.text)).flatten)).flatten
  (found.map Prod.snd, allLines)

/-- Evaluation rule for the identical-strings branch of the similarity. -/
theorem sim_eq_one (a : List Char) (h : a ≠ []) : calculate_similarity a a = 1 := by
  simp [calculate_similarity, h]

/-- Evaluation rule for the containment branch of the similarity. -/
theorem sim_contains (a b : List Char) (h1 : a ≠ []) (h2 : b ≠ []) (h3 : a ≠ b)
    (h4 : isSubstring b a = true ∨ isSubstring a b = true) :
    calculate_similarity a b =
      ((min (utf8Len a) (utf8Len b) : Nat) : Rat) / ((max (utf8Len a) (utf8Len b) : Nat) : Rat) := by
  rw [calculate_similarity, if_neg (by simp [h1, h2]), if_neg h3, if_pos (by simpa using h4)]

/-- Evaluation rule for the word-overlap branch of the similarity. -/
theorem sim_jaccard (a b : List Char) (h1 : a ≠ []) (h2 : b ≠ []) (h3 : a ≠ b)
    (h4 : isSubstring b a = false) (h5 : isSubstring a b = false)
    (h6 : wordSet a ≠ ∅) (h7 : wordSet b ≠ ∅) :
    calculate_similarity a b =
      ((wordSet a ∩ wordSet b).card : Rat) / ((wordSet a ∪ wordSet b).card : Rat) := by
  rw [calculate_similarity, if_neg (by simp [h1, h2]), if_neg h3,
    if_neg (by simp [h4, h5]), if_neg (by simp [h6, h7])]

/-- Evaluation rule for the empty-word-set outcome of the similarity. -/
theorem sim_zero_words (a b : List Char) (h3 : a ≠ b)
    (h4 : isSubstring b a = false) (h5 : isSubstring a b = false)
    (h6 : wordSet a = ∅ ∨ wordSet b = ∅) :
    calculate_similarity a b = 0 := by
  rw [calculate_similarity]
  by_cases h1 : a = [] ∨ b = []
  · rw [if_pos h1]
  · rw [if_neg h1, if_neg h3, if_neg (by simp [h4, h5]), if_pos h6]

/-- Intersection of word lists (kept in the order of the first list). -/
def interW (A B : List (List Char)) : List (List Char) := A.filter (fun w => w ∈ B)

/-- Union of word lists (first list, then the new words of the second). -/
def unionW (A B : List (List Char)) : List (List Char) := A ++ B.filter (fun w => w ∉ A)

/-- The similarity function as claim C4 words it, with the amendment that
identical strings score 1.0 only when nonempty (the code returns 0.0
whenever either argument is empty, before the identity test). Word sets
are deduplicated word lists here, with list intersection and union. -/
def similaritySpecAmended (a b : List Char) : Rat :=
  if a = [] ∨ b = [] then 0
  else if a = b then 1
  else if isSubstring b a ∨ isSubstring a b then
    ((min (utf8Len a) (utf8Len b) : Nat) : Rat) / ((max (utf8Len a) (utf8Len b) : Nat) : Rat)
  else
    let wa := (splitWs a).dedup
    let wb := (splitWs b).dedup
    if wa = [] ∨ wb = [] then 0
    else ((interW wa wb).length : Rat) / ((unionW wa wb).length : Rat)

/-- Cardinality of a Finset intersection built from lists, as a deduplicated
list-intersection length. -/
theorem interW_card (A B : List (List Char)) :
    (A.toFinset ∩ B.toFinset).card = (interW A.dedup B.dedup).length := by
  have h1 : (interW A.dedup B.dedup).toFinset = A.toFinset ∩ B.toFinset := by
    ext x; simp [interW, List.mem_dedup]
  rw [← h1]
  exact List.toFinset_card_of_nodup ((A.nodup_dedup).filter _)

/-- Cardinality of a Finset union built from lists, as a deduplicated
list-union length. -/
theorem unionW_card (A B : List (List Char)) :
    (A.toFinset ∪ B.toFinset).card = (unionW A.dedup B.dedup).length := by
  have h1 : (unionW A.dedup B.dedup).toFinset = A.toFinset ∪ B.toFinset := by
    ext x; simp [unionW, List.mem_dedup]; tauto
  rw [← h1]
  refine List.toFinset_card_of_nodup ?_
  refine List.Nodup.append (A.nodup_dedup) ((B.nodup_dedup).filter _) ?_
  intro x hx hy
  simp [List.mem_filter, List.mem_dedup] at hy
  exact hy.2 (List.mem_dedup.mp hx)

/-- The code similarity agrees with the amended specification formula. -/
theorem similarity_eq_spec (a b : List Char) :
    calculate_similarity a b = similaritySpecAmended a b := by
  have hae : wordSet a = ∅ ↔ (splitWs a).dedup = [] := by
    rw [wordSet, List.toFinset_eq_empty_iff, List.dedup_eq_nil]
  have hbe : wordSet b = ∅ ↔ (splitWs b).dedup = [] := by
    rw [wordSet, List.toFinset_eq_empty_iff, List.dedup_eq_nil]
  rw [calculate_similarity, similaritySpecAmended]
  by_cases h1 : a = [] ∨ b = []
  · simp only [if_pos h1]
  simp only [if_neg h1]
  by_cases h2 : a = b
  · simp only [if_pos h2]
  simp only [if_neg h2]
  by_cases h3 : isSubstring b a = true ∨ isSubstring a b = true
  · simp only [if_pos h3]
  simp only [if_neg h3]
  by_cases h4 : wordSet a = ∅ ∨ wordSet b = ∅
  · have h4d : (splitWs a).dedup = [] ∨ (splitWs b).dedup = [] := by
      rcases h4 with h | h
      · exact Or.inl (hae.mp h)
      · exact Or.inr (hbe.mp h)
    simp only [if_pos h4, if_pos h4d]
  · have h4d : ¬ ((splitWs a).dedup = [] ∨ (splitWs b).dedup = []) := by
      intro h
      rcases h with h | h
      · exact h4 (Or.inl (hae.mpr h))
      · exact h4 (Or.inr (hbe.mpr h))
    rw [if_neg h4, if_neg h4d]
    simp only [wordSet]
    rw [interW_card, unionW_card]

/-- C4 counterexample: the claim says identical strings score 1.0, but the
code scores the (identical) pair of empty strings 0.0, because the
empty-argument test precedes the identity test. -/
theorem C4_similarity_counterexample :
    calculate_similarity [] [] = 0 ∧ (0 : Rat) ≠ 1 := by
  constructor
  · rw [calculate_similarity, if_pos (Or.inl rfl)]
  · norm_num

/-- C4 (amended): the similarity equals 0.0 when either string is empty and
1.0 when the strings are identical and nonempty; otherwise, if one contains
the other it equals shorter length over longer length, and otherwise the
Jaccard ratio of the whitespace-split word sets, 0.0 when either word set
is empty. In particular word order is ignored and strings whose word sets
are disjoint (and that do not contain one another) score 0.0. -/
theorem C4_similarity_amended :
    (∀ a b : List Char, calculate_similarity a b = similaritySpecAmended a b) ∧
    calculate_similarity (String.toList "amazing grace") (String.toList "grace amazing") = 1 ∧
    calculate_similarity (String.toList "amazing grace") (String.toList "holy holy") = 0 := by
  refine ⟨similarity_eq_spec, ?_, ?_⟩
  · rw [sim_jaccard _ _ (by decide) (by decide) (by decide) (by decide) (by decide)
      (by decide) (by decide)]
    rw [show (wordSet (String.toList "amazing grace") ∩ wordSet (String.toList "grace amazing")).card = 2 from by decide]
    rw [show (wordSet (String.toList "amazing grace") ∪ wordSet (String.toList "grace amazing")).card = 2 from by decide]
    norm_num
  · rw [sim_jaccard _ _ (by decide) (by decide) (by decide) (by decide) (by decide)
      (by decide) (by decide)]
    rw [show (wordSet (String.toList "amazing grace") ∩ wordSet (String.toList "holy holy")).card = 0 from by decide,
      Nat.cast_zero, zero_div]

/-- Position-wise context view of a string: every character paired with the
characters immediately before and after it in the input. -/
def withNeighbors (prev : Option Char) : List Char → List (Option Char × Char × Option Char)
  | [] => []
  | c :: rest => (prev, c, rest.head?) :: withNeighbors (some c) rest

/-- The per-character rule exactly as claim C7 states it: an
apostrophe-class character (straight, curly left and right, backtick) is
kept as the canonical straight apostrophe iff both neighbours are
alphabetic; punctuation is dropped; everything else is kept. -/
def charRuleClaimC7 (p : Option Char) (c : Char) (n : Option Char) : List Char :=
  if isApo c then (if optAlpha p ∧ optAlpha n then [apoCh] else [])
  else if isPunct c then [] else [c]

/-- The amended per-character rule: the backtick is in PUNCTUATION_CHARS,
which normalize_line tests first, so a backtick is always dropped; the
three other apostrophe-class characters follow the claimed rule. -/
def charRuleAmendedC7 (p : Option Char) (c : Char) (n : Option Char) : List Char :=
  if c = backtickCh then []
  else if isApo c then (if optAlpha p ∧ optAlpha n then [apoCh] else [])
  else if isPunct c then [] else [c]

/-- The claimed character stage of normalize_line. -/
def phiClaimC7 (s : List Char) : List Char :=
  (withNeighbors none s).flatMap (fun t => charRuleClaimC7 t.1 t.2.1 t.2.2)

/-- The amended character stage of normalize_line. -/
def phiAmendedC7 (s : List Char) : List Char :=
  (withNeighbors none s).flatMap (fun t => charRuleAmendedC7 t.1 t.2.1 t.2.2)

/-- Enumeration of the apostrophe-class characters. -/
theorem apo_cases (c : Char) (h : isApo c = true) :
    c = apoCh ∨ c = rsqCh ∨ c = lsqCh ∨ c = backtickCh := by
  have hm : c ∈ apostropheChars := List.mem_of_elem_eq_true h
  simpa [apostropheChars] using hm

/-- The character pass of the code equals the amended position-wise rule. -/
theorem phiAux_eq_amended (s : List Char) : ∀ p : Option Char,
    phiAux p s = (withNeighbors p s).flatMap (fun t => charRuleAmendedC7 t.1 t.2.1 t.2.2) := by
  induction s with
  | nil => intro p; rfl
  | cons c rest ih =>
    intro p
    rw [phiAux, withNeighbors, List.flatMap_cons, ih (some c)]
    by_cases hb : c = backtickCh
    · subst hb
      rw [if_pos (by decide), charRuleAmendedC7, if_pos rfl, List.nil_append]
    by_cases hp : isPunct c = true
    · have hna : isApo c = false := by
        by_contra hcon
        rcases apo_cases c (by simpa using hcon) with h | h | h | h
        · subst h; exact absurd hp (by decide)
        · subst h; exact absurd hp (by decide)
        · subst h; exact absurd hp (by decide)
        · exact hb h
      rw [if_pos hp, charRuleAmendedC7, if_neg hb, if_neg (by simp [hna]), if_pos hp,
        List.nil_append]
    by_cases ha : isApo c = true
    · rw [if_neg hp, if_pos ha, charRuleAmendedC7, if_neg hb, if_pos ha]
      by_cases hf : optAlpha p ∧ optAlpha rest.head?
      · rw [if_pos hf, if_pos (by simpa using hf), List.singleton_append]
      · rw [if_neg hf, if_neg (by simpa using hf), List.nil_append]
    · rw [if_neg hp, if_neg ha, charRuleAmendedC7, if_neg hb, if_neg (by simp [ha]),
        if_neg hp, List.singleton_append]

/-- C7 counterexample: a backtick between two letters. The claim predicts
that normalize_line keeps it as a straight apostrophe, but the backtick is
also in PUNCTUATION_CHARS, which normalize_line tests first, so it is
always dropped. -/
theorem C7_apostrophe_counterexample :
    normalize_line true [Char.ofNat 97, backtickCh, Char.ofNat 98] =
      [Char.ofNat 97, Char.ofNat 98] ∧
    phiClaimC7 [Char.ofNat 97, backtickCh, Char.ofNat 98] =
      [Char.ofNat 97, apoCh, Char.ofNat 98] ∧
    ([Char.ofNat 97, Char.ofNat 98] : List Char) ≠ [Char.ofNat 97, apoCh, Char.ofNat 98] := by
  refine ⟨by decide, by decide, by decide⟩

/-- C7 (amended): the character stage of normalize_line keeps a straight or
curly-single-quote apostrophe-class character iff both input neighbours are
alphabetic, emitting the canonical straight apostrophe, and drops it
otherwise; a backtick, although apostrophe-class, is always dropped because
it is also punctuation and the punctuation test comes first. -/
theorem C7_apostrophe_amended :
    (∀ s : List Char, phiPass s = phiAmendedC7 s) ∧
    normalize_line true [Char.ofNat 97, backtickCh, Char.ofNat 98] =
      [Char.ofNat 97, Char.ofNat 98] := by
  constructor
  · intro s
    rw [phiPass, phiAmendedC7, phiAux_eq_amended]
  · decide

/-- The format of a source presentation file (PresentationFormat from
crates/core/src/types.rs). -/
inductive PresentationFormat
  | Pptx
  | Ppt
deriving DecidableEq

/-- PresentationFormat::from_extension: case-insensitive extension match. -/
def from_extension (ext : List Char) : Option PresentationFormat :=
  if ext.map rsToLower = String.toList "pptx" then some PresentationFormat.Pptx
  else if ext.map rsToLower = String.toList "ppt" then some PresentationFormat.Ppt
  else none

/-- The ZIP local-file-header signature bytes. -/
def pkSig : List Nat := [0x50, 0x4B, 0x03, 0x04]

/-- The OLE/CFB signature bytes. -/
def cfbSig : List Nat := [0xD0, 0xCF, 0x11, 0xE0, 0xA1, 0xB1, 0x1A, 0xE1]

/-- PresentationFormat::from_magic from crates/core/src/types.rs. -/
def from_magic (bytes : List Nat) : Option PresentationFormat :=
  if bytes.length < 4 then none
  else if isPrefixB pkSig bytes then some PresentationFormat.Pptx
  else if 8 ≤ bytes.length ∧ isPrefixB cfbSig bytes then some PresentationFormat.Ppt
  else none

/-- The format-detection step of process_file in crates/cli/src/main.rs:
magic bytes first, then the optional extension fallback. -/
def detect_format (bytes : List Nat) (ext : Option (List Char)) : Option PresentationFormat :=
  match from_magic bytes with
  | some f => some f
  | none => ext.bind from_extension

/-- A Boolean prefix test holds of any extension of the pattern target. -/
theorem isPrefixB_of_eq {α : Type} [DecidableEq α] (p : List α) :
    ∀ rest : List α, isPrefixB p (p ++ rest) = true := by
  induction p with
  | nil => intro rest; rfl
  | cons a as ih => intro rest; simp [isPrefixB, ih]

/-- A true Boolean prefix test gives back the shape of the list. -/
theorem isPrefixB_iff {α : Type} [DecidableEq α] (p l : List α) :
    isPrefixB p l = true ↔ ∃ rest, l = p ++ rest := by
  constructor
  · intro h
    induction p generalizing l with
    | nil => exact ⟨l, rfl⟩
    | cons a as ih =>
      match l with
      | [] => simp [isPrefixB] at h
      | b :: bs =>
        rw [isPrefixB] at h
        simp only [Bool.decide_and, Bool.and_eq_true, decide_eq_true_eq] at h
        obtain ⟨rest, hrest⟩ := ih bs h.2
        exact ⟨rest, by simp [← h.1, hrest]⟩
  · rintro ⟨rest, rfl⟩
    exact isPrefixB_of_eq p rest

/-- C5: format detection is magic-byte first. A buffer starting with the
ZIP signature is Modern-Zip and a buffer of at least 8 bytes starting with
the CFB signature is LegacyBinary, whatever the extension; the
case-insensitive extension fallback decides only when the magic bytes are
inconclusive; detection fails exactly when both magic bytes and extension
are inconclusive. -/
theorem C5_format_detection :
    (∀ (bytes : List Nat) (ext : Option (List Char)),
      isPrefixB pkSig bytes = true →
      detect_format bytes ext = some PresentationFormat.Pptx) ∧
    (∀ (bytes : List Nat) (ext : Option (List Char)),
      8 ≤ bytes.length → isPrefixB cfbSig bytes = true →
      detect_format bytes ext = some PresentationFormat.Ppt) ∧
    (∀ (bytes : List Nat) (ext : Option (List Char)),
      from_magic bytes = none →
      detect_format bytes ext = ext.bind from_extension) ∧
    (∀ (bytes : List Nat) (ext : Option (List Char)),
      detect_format bytes ext = none ↔
        (from_magic bytes = none ∧ ext.bind from_extension = none)) := by
  have hmagic_pk : ∀ bytes : List Nat, isPrefixB pkSig bytes = true →
      from_magic bytes = some PresentationFormat.Pptx := by
    intro bytes h
    obtain ⟨rest, rfl⟩ := (isPrefixB_iff _ _).mp h
    rw [from_magic, if_neg (by simp [pkSig]), if_pos h]
  have hmagic_cfb : ∀ bytes : List Nat, 8 ≤ bytes.length → isPrefixB cfbSig bytes = true →
      from_magic bytes = some PresentationFormat.Ppt := by
    intro bytes hlen h
    have hpk : isPrefixB pkSig bytes = false := by
      obtain ⟨rest, rfl⟩ := (isPrefixB_iff _ _).mp h
      simp [pkSig, cfbSig, isPrefixB]
    rw [from_magic, if_neg (by omega), if_neg (by simp [hpk]), if_pos ⟨hlen, h⟩]
  refine ⟨?_, ?_, ?_, ?_⟩
  · intro bytes ext h
    rw [detect_format, hmagic_pk bytes h]
  · intro bytes ext hlen h
    rw [detect_format, hmagic_cfb bytes hlen h]
  · intro bytes ext h
    rw [detect_format, h]
  · intro bytes ext
    rw [detect_format]
    cases hm : from_magic bytes with
    | some f => simp
    | none => simp

/-- C5 witness: a buffer carrying the ZIP signature but a ppt extension is
detected as Modern-Zip. -/
theorem C5_format_detection_witness :
    isPrefixB pkSig [0x50, 0x4B, 0x03, 0x04, 0, 0, 0, 0] = true ∧
    detect_format [0x50, 0x4B, 0x03, 0x04, 0, 0, 0, 0] (some (String.toList "ppt")) =
      some PresentationFormat.Pptx := by
  refine ⟨by decide, C5_format_detection.1 _ _ (by decide)⟩

/-- The per-byte decoding match of extract_ansi_text in
crates/ppt/src/parser.rs: ASCII passes through, the 0x80..0x9F block maps
through the explicit Windows-1252 arms, 0xA0..0xFF maps to the identical
code point, and everything else falls through to a question mark. -/
def ansiMapChar (b : Nat) : Char :=
  if b ≤ 0x7F then Char.ofNat b
  else if b = 0x80 then Char.ofNat 0x20AC
  else if b = 0x82 then Char.ofNat 0x201A
  else if b = 0x83 then Char.ofNat 0x192
  else if b = 0x84 then Char.ofNat 0x201E
  else if b = 0x85 then Char.ofNat 0x2026
  else if b = 0x86 then Char.ofNat 0x2020
  else if b = 0x87 then Char.ofNat 0x2021
  else if b = 0x88 then Char.ofNat 0x2C6
  else if b = 0x89 then Char.ofNat 0x2030
  else if b = 0x8A then Char.ofNat 0x160
  else if b = 0x8B then Char.ofNat 0x2039
  else if b = 0x8C then Char.ofNat 0x152
  else if b = 0x8E then Char.ofNat 0x17D
  else if b = 0x91 then Char.ofNat 0x2018
  else if b = 0x92 then Char.ofNat 0x2019
  else if b = 0x93 then Char.ofNat 0x201C
  else if b = 0x94 then Char.ofNat 0x201D
  else if b = 0x95 then Char.ofNat 0x2022
  else if b = 0x96 then Char.ofNat 0x2013
  else if b = 0x97 then Char.ofNat 0x2014
  else if b = 0x98 then Char.ofNat 0x2DC
  else if b = 0x99 then Char.ofNat 0x2122
  else if b = 0x9A then Char.ofNat 0x161
  else if b = 0x9B then Char.ofNat 0x203A
  else if b = 0x9C then Char.ofNat 0x153
  else if b = 0x9E then Char.ofNat 0x17E
  else if b = 0x9F then Char.ofNat 0x178
  else if 0xA0 ≤ b ∧ b ≤ 0xFF then Char.ofNat b
  else Char.ofNat 63

/-- The decoding core of extract_ansi_text: truncate at the first null
byte, decode every remaining byte, and discard the run when the trimmed
result is empty. -/
def extract_ansi_core (body : List Nat) : Option (List Char) :=
  let text := (body.takeWhile (fun b => b ≠ 0)).map ansiMapChar
  if rsTrim text = [] then none else some text

/-- extract_ansi_text from crates/ppt/src/parser.rs, with the record body
slice made explicit. -/
def extract_ansi_text (data : List Nat) (start len : Nat) : Option (List Char) :=
  if len = 0 ∨ data.length < start + len then none
  else extract_ansi_core ((data.drop start).take len)

/-- The 27 mapped entries of the fixed 0x80..0x9F substitution table (the
five slots 0x81, 0x8D, 0x8F, 0x90, 0x9D are absent). -/
def cp1252Table : List (Nat × Char) :=
  [(0x80, Char.ofNat 0x20AC), (0x82, Char.ofNat 0x201A), (0x83, Char.ofNat 0x192),
   (0x84, Char.ofNat 0x201E), (0x85, Char.ofNat 0x2026), (0x86, Char.ofNat 0x2020),
   (0x87, Char.ofNat 0x2021), (0x88, Char.ofNat 0x2C6), (0x89, Char.ofNat 0x2030),
   (0x8A, Char.ofNat 0x160), (0x8B, Char.ofNat 0x2039), (0x8C, Char.ofNat 0x152),
   (0x8E, Char.ofNat 0x17D), (0x91, Char.ofNat 0x2018), (0x92, Char.ofNat 0x2019),
   (0x93, Char.ofNat 0x201C), (0x94, Char.ofNat 0x201D), (0x95, Char.ofNat 0x2022),
   (0x96, Char.ofNat 0x2013), (0x97, Char.ofNat 0x2014), (0x98, Char.ofNat 0x2DC),
   (0x99, Char.ofNat 0x2122), (0x9A, Char.ofNat 0x161), (0x9B, Char.ofNat 0x203A),
   (0x9C, Char.ofNat 0x153), (0x9E, Char.ofNat 0x17E), (0x9F, Char.ofNat 0x178)]

/-- Byte decoding exactly as claim C2 states it: ASCII and 0xA0..0xFF pass
through, the 0x80..0x9F block goes through the substitution table and the
unmapped slots are dropped from the output. -/
def ansiMapClaimC2 (b : Nat) : List Char :=
  if b ≤ 0x7F then [Char.ofNat b]
  else if 0xA0 ≤ b ∧ b ≤ 0xFF then [Char.ofNat b]
  else match cp1252Table.lookup b with
       | some c => [c]
       | none => []

/-- The record-body decoder exactly as claim C2 states it. -/
def ansiDecodeClaimC2 (body : List Nat) : Option (List Char) :=
  let text := (body.takeWhile (fun b => b ≠ 0)).flatMap ansiMapClaimC2
  if rsTrim text = [] then none else some text

/-- Byte decoding as amended: the unmapped slots of the substitution table
become a question mark instead of being dropped. -/
def ansiMapAmendedC2 (b : Nat) : List Char :=
  if b ≤ 0x7F then [Char.ofNat b]
  else if 0xA0 ≤ b ∧ b ≤ 0xFF then [Char.ofNat b]
  else match cp1252Table.lookup b with
       | some c => [c]
       | none => [Char.ofNat 63]

/-- The record-body decoder as amended. -/
def ansiDecodeAmendedC2 (body : List Nat) : Option (List Char) :=
  let text := (body.takeWhile (fun b => b ≠ 0)).flatMap ansiMapAmendedC2
  if rsTrim text = [] then none else some text

set_option maxRecDepth 4096 in
/-- The source byte map agrees with the amended table map on every byte. -/
theorem ansi_map_eq_small : ∀ b < 256, ansiMapAmendedC2 b = [ansiMapChar b] := by decide

/-- C2 counterexample: a record body holding the single unmapped byte 0x81.
The claim predicts the byte is dropped and the run discarded; the code maps
it to a question mark and keeps the run. -/
theorem C2_ansi_counterexample :
    extract_ansi_text [0x81] 0 1 = some [Char.ofNat 63] ∧
    ansiDecodeClaimC2 [0x81] = none ∧
    some [Char.ofNat 63] ≠ (none : Option (List Char)) := by
  refine ⟨by decide, by decide, by decide⟩

/-- C2 (amended): for every record body of bytes, decoding truncates at the
first null byte, maps ASCII through, maps 0x80..0x9F through the fixed
substitution table with the unmapped slots becoming a question mark, maps
0xA0..0xFF to the identical code point, and discards the run iff the
trimmed result is empty. -/
theorem C2_ansi_amended : ∀ (data : List Nat) (start len : Nat),
    (∀ b ∈ data, b < 256) →
    extract_ansi_text data start len =
      (if len = 0 ∨ data.length < start + len then none
       else ansiDecodeAmendedC2 ((data.drop start).take len)) := by
  intro data start len hb
  rw [extract_ansi_text]
  by_cases hg : len = 0 ∨ data.length < start + len
  · rw [if_pos hg, if_pos hg]
  rw [if_neg hg, if_neg hg]
  rw [extract_ansi_core, ansiDecodeAmendedC2]
  have hmap : ((((data.drop start).take len).takeWhile (fun b => b ≠ 0)).flatMap ansiMapAmendedC2) =
      ((((data.drop start).take len).takeWhile (fun b => b ≠ 0)).map ansiMapChar) := by
    have hsub : ∀ b ∈ (((data.drop start).take len).takeWhile (fun b => b ≠ 0)), b < 256 := by
      intro b hmem
      refine hb b ?_
      have h1 := (List.takeWhile_sublist (fun b => b ≠ 0)).mem hmem
      have h2 := List.mem_of_mem_take h1
      exact List.mem_of_mem_drop h2
    generalize (((data.drop start).take len).takeWhile (fun b => b ≠ 0)) = l at hsub ⊢
    induction l with
    | nil => rfl
    | cons x xs ih =>
      rw [List.flatMap_cons, List.map_cons, ansi_map_eq_small x (hsub x (by simp)),
        List.singleton_append]
      rw [ih (fun b hb2 => hsub b (by simp [hb2]))]
  rw [hmap]

/-- Error kinds of crates/core/src/error.rs (the diagnostic message strings
carried by each variant are not modelled). -/
inductive ErrorKind
  | IoError
  | UnsupportedFormat
  | PptxParseError
  | PptParseError
  | ExtractionError
  | CorruptedFile
  | ZipError
  | XmlError
  | CfbError
deriving DecidableEq

/-- Minimum stream size for a valid PPT file (bytes). -/
def MIN_STREAM_SIZE : Nat := 512

/-- Maximum supported text type value. -/
def MAX_SUPPORTED_TEXT_TYPE : Nat := 8

/-- Record type constants for the PPT file format. -/
def RT_DOCUMENT : Nat := 0x1388

/-- Slide record type. -/
def RT_SLIDE : Nat := 0x03E8

/-- Slide-persistence record type. -/
def RT_SLIDE_PERSIST_ATOM : Nat := 0x03F0

/-- Text-header record type. -/
def RT_TEXT_HEADER_ATOM : Nat := 0x0F9F

/-- Unicode text record type. -/
def RT_TEXT_CHARS_ATOM : Nat := 0x0FA0

/-- Byte text record type. -/
def RT_TEXT_BYTES_ATOM : Nat := 0x0FA8

/-- Metadata string record type. -/
def RT_CSTRING : Nat := 0x0FBA

/-- Little-endian 16-bit read; none models the out-of-bounds panic. -/
def read_u16_le (data : List Nat) (off : Nat) : Option Nat :=
  match data.get? off, data.get? (off + 1) with
  | some b0, some b1 => some (b0 + b1 * 256)
  | _, _ => none

/-- Little-endian 32-bit read; none models the out-of-bounds panic. -/
def read_u32_le (data : List Nat) (off : Nat) : Option Nat :=
  match data.get? off, data.get? (off + 1), data.get? (off + 2), data.get? (off + 3) with
  | some b0, some b1, some b2, some b3 =>
    some (b0 + b1 * 256 + b2 * 65536 + b3 * 16777216)
  | _, _, _, _ => none

/-- FileValidation from crates/ppt/src/parser.rs. -/
structure FileValidation where
  stream_size : Nat
  has_document : Bool
  has_slides : Bool
  has_text_headers : Bool
  has_text_content : Bool
  text_record_count : Nat
  unsupported_text_types : Finset Nat
  malformed_records : Nat
deriving DecidableEq

/-- The all-clear validation tally for a stream of the given size. -/
def initValidation (size : Nat) : FileValidation :=
  ⟨size, false, false, false, false, 0, ∅, 0⟩

/-- The per-record tally update of scan_records_for_validation (none
models an out-of-bounds panic while reading the text-type field). -/
def validationStep (data : List Nat) (rty rlen contentStart : Nat)
    (v : FileValidation) : Option FileValidation :=
  if rty = RT_DOCUMENT then some {v with has_document := true}
  else if rty = RT_SLIDE then some {v with has_slides := true}
  else if rty = RT_TEXT_HEADER_ATOM then
    (if 4 ≤ rlen ∧ contentStart + 4 ≤ data.length then
       match read_u32_le data contentStart with
       | some tt =>
         some (if MAX_SUPPORTED_TEXT_TYPE < tt then
           {v with has_text_headers := true,
                   unsupported_text_types := insert tt v.unsupported_text_types}
         else {v with has_text_headers := true})
       | none => none
     else some {v with has_text_headers := true})
  else if rty = RT_TEXT_CHARS_ATOM ∨ rty = RT_TEXT_BYTES_ATOM then
    some {v with has_text_content := true, text_record_count := v.text_record_count + 1}
  else some v

/-- scan_records_for_validation from crates/ppt/src/parser.rs: walk the
records of data between pos and end_, descending into container records
(version nibble 0xF); a record whose declared body extends past the scope
or the stream counts as malformed and stops the scan of that scope. -/
def scanRecords (data : List Nat) (pos end_ : Nat) (v : FileValidation) :
    Option FileValidation :=
  if _h8 : pos + 8 ≤ end_ then
    match read_u16_le data pos, read_u16_le data (pos + 2), read_u32_le data (pos + 4) with
    | some rvi, some rty, some rlen =>
      if _hmf : end_ < pos + 8 + rlen ∨ data.length < pos + 8 + rlen then
        some {v with malformed_records := v.malformed_records + 1}
      else
        match validationStep data rty rlen (pos + 8) v with
        | none => none
        | some v2 =>
          match (if rvi % 16 = 0xF then scanRecords data (pos + 8) (pos + 8 + rlen) v2
                 else some v2) with
          | none => none
          | some v3 => scanRecords data (pos + 8 + rlen) end_ v3
    | _, _, _ => none
  else some v
termination_by end_ - pos
decreasing_by
  · omega
  · omega

/-- validate_stream from crates/ppt/src/parser.rs. -/
def validate_stream (data : List Nat) : Option (Except ErrorKind FileValidation) :=
  if data.length < MIN_STREAM_SIZE then some (Except.error ErrorKind.CorruptedFile)
  else
    match scanRecords data 0 data.length (initValidation data.length) with
    | none => none
    | some v =>
      if ¬ v.has_document then some (Except.error ErrorKind.UnsupportedFormat)
      else if ¬ v.has_text_content ∧ ¬ v.has_text_headers then
        some (Except.error ErrorKind.UnsupportedFormat)
      else if 10 < v.malformed_records then some (Except.error ErrorKind.CorruptedFile)
      else some (Except.ok v)

/-- C6: every stream shorter than the 512-byte minimum is rejected by
validate_stream with the corrupted-file error kind, and with no other
kind (the size test is the first test and returns at once). -/
theorem C6_small_stream_corrupted :
    MIN_STREAM_SIZE = 512 ∧
    ∀ data : List Nat, data.length < MIN_STREAM_SIZE →
      validate_stream data = some (Except.error ErrorKind.CorruptedFile) := by
  refine ⟨rfl, fun data h => ?_⟩
  rw [validate_stream, if_pos h]

/-- C6 witness: a 100-byte stream is rejected as corrupted. -/
theorem C6_small_stream_corrupted_witness :
    (List.replicate 100 0).length < MIN_STREAM_SIZE ∧
    validate_stream (List.replicate 100 0) = some (Except.error ErrorKind.CorruptedFile) :=
  ⟨by decide, C6_small_stream_corrupted.2 _ (by decide)⟩

/-- Text types from RT_TextHeaderAtom (crates/ppt/src/parser.rs). -/
inductive TextType
  | Title
  | Body
  | Notes
  | NotUsed
  | Other
  | CenterBody
  | CenterTitle
  | HalfBody
  | QuarterBody
deriving DecidableEq

/-- TextType::from_u32: unknown codes collapse to Other. -/
def TextType.from_u32 (v : Nat) : TextType :=
  if v = 0 then TextType.Title
  else if v = 1 then TextType.Body
  else if v = 2 then TextType.Notes
  else if v = 3 then TextType.NotUsed
  else if v = 4 then TextType.Other
  else if v = 5 then TextType.CenterBody
  else if v = 6 then TextType.CenterTitle
  else if v = 7 then TextType.HalfBody
  else if v = 8 then TextType.QuarterBody
  else TextType.Other

/-- TextType::is_slide_content: everything except Notes and NotUsed. -/
def TextType.is_slide_content : TextType → Bool
  | TextType.Notes => false
  | TextType.NotUsed => false
  | _ => true

/-- chunks_exact(2) of a byte list as little-endian 16-bit units. -/
def toU16Pairs : List Nat → List Nat
  | b0 :: b1 :: rest => (b0 + b1 * 256) :: toU16Pairs rest
  | _ => []

/-- char::decode_utf16 combined with the take_while over Ok non-null
results: stop at the first null unit or unpairable surrogate, pair the
valid surrogate pairs, keep BMP units as they are. -/
def decodeUtf16Units : List Nat → List Char
  | [] => []
  | [u] =>
    if u = 0 then []
    else if 0xD800 ≤ u ∧ u ≤ 0xDFFF then []
    else [Char.ofNat u]
  | u :: v :: rest =>
    if u = 0 then []
    else if 0xD800 ≤ u ∧ u ≤ 0xDBFF then
      (if 0xDC00 ≤ v ∧ v ≤ 0xDFFF then
        Char.ofNat (0x10000 + (u - 0xD800) * 0x400 + (v - 0xDC00)) :: decodeUtf16Units rest
      else [])
    else if 0xDC00 ≤ u ∧ u ≤ 0xDFFF then []
    else Char.ofNat u :: decodeUtf16Units (v :: rest)

/-- extract_unicode_text from crates/ppt/src/parser.rs. -/
def extract_unicode_text (data : List Nat) (start len : Nat) : Option (List Char) :=
  if len = 0 ∨ data.length < start + len ∨ len % 2 ≠ 0 then none
  else
    let text := decodeUtf16Units (toU16Pairs ((data.drop start).take len))
    if text = [] then none else some text

/-- The template placeholder substrings of is_valid_slide_text. -/
def templatePatterns : List (List Char) :=
  [String.toList "Click to edit", String.toList "click to edit",
   String.toList "Edit Master", String.toList "edit master",
   String.toList "Master title", String.toList "master title",
   String.toList "Master text", String.toList "master text",
   String.toList "Second level", String.toList "Third level",
   String.toList "Fourth level", String.toList "Fifth level"]

/-- is_valid_slide_text from crates/ppt/src/parser.rs. -/
def is_valid_slide_text (text : List Char) (tt : TextType) : Bool :=
  let trimmed := rsTrim text
  if trimmed = [] then false
  else if ¬ tt.is_slide_content then false
  else if templatePatterns.any (fun p => isSubstring p trimmed) then false
  else if utf8Len trimmed = 1 ∧ ¬ rsIsAlphanumeric (trimmed.headD (Char.ofNat 32)) then false
  else true

/-- TextEntry from crates/ppt/src/parser.rs: decoded text with its purpose,
byte offset, and the persistence-marker count seen so far. -/
structure TextEntry where
  text : List Char
  text_type : TextType
  position : Nat
  slide_hint : Nat
deriving DecidableEq

/-- The mutable traversal state of parse_records_recursive. -/
structure ParseState where
  entries : List TextEntry
  current_text_type : TextType
  slide_persist_count : Nat
deriving DecidableEq

/-- The per-record action of parse_records_recursive (none models an
out-of-bounds panic while reading the text-type field). -/
def parseStep (data : List Nat) (rty rlen pos : Nat) (st : ParseState) : Option ParseState :=
  if rty = RT_SLIDE_PERSIST_ATOM then
    some {st with slide_persist_count := st.slide_persist_count + 1}
  else if rty = RT_TEXT_HEADER_ATOM then
    (if 4 ≤ rlen ∧ pos + 8 + 4 ≤ data.length then
       match read_u32_le data (pos + 8) with
       | some tv => some {st with current_text_type := TextType.from_u32 tv}
       | none => none
     else some st)
  else if rty = RT_TEXT_CHARS_ATOM then
    some (match extract_unicode_text data (pos + 8) rlen with
      | some text =>
        if is_valid_slide_text text st.current_text_type then
          {st with entries := st.entries ++
            [⟨text, st.current_text_type, pos, st.slide_persist_count⟩]}
        else st
      | none => st)
  else if rty = RT_TEXT_BYTES_ATOM then
    some (match extract_ansi_text data (pos + 8) rlen with
      | some text =>
        if is_valid_slide_text text st.current_text_type then
          {st with entries := st.entries ++
            [⟨text, st.current_text_type, pos, st.slide_persist_count⟩]}
        else st
      | none => st)
  else some st

/-- parse_records_recursive from crates/ppt/src/parser.rs: the extraction
traversal, structurally identical to the validation scan (a record whose
body extends past its scope stops the scan of that scope). -/
def parseRecords (data : List Nat) (pos end_ : Nat) (st : ParseState) : Option ParseState :=
  if _h8 : pos + 8 ≤ end_ then
    match read_u16_le data pos, read_u16_le data (pos + 2), read_u32_le data (pos + 4) with
    | some rvi, some rty, some rlen =>
      if _hmf : end_ < pos + 8 + rlen ∨ data.length < pos + 8 + rlen then some st
      else
        match parseStep data rty rlen pos st with
        | none => none
        | some st2 =>
          match (if rvi % 16 = 0xF then parseRecords data (pos + 8) (pos + 8 + rlen) st2
                 else some st2) with
          | none => none
          | some st3 => parseRecords data (pos + 8 + rlen) end_ st3
    | _, _, _ => none
  else some st
termination_by end_ - pos
decreasing_by
  · omega
  · omega

/-- collect_text_entries from crates/ppt/src/parser.rs: run the extraction
traversal over the whole stream starting from the Body text type and a
zero persistence count. -/
def collect_text_entries (data : List Nat) : Option (List TextEntry) :=
  (parseRecords data 0 data.length ⟨[], TextType.Body, 0⟩).map (fun st => st.entries)

/-- A 16-bit read inside the buffer never fails. -/
theorem read_u16_isSome (data : List Nat) (off : Nat) (h : off + 2 ≤ data.length) :
    (read_u16_le data off).isSome := by
  rw [read_u16_le, List.get?_eq_get (by omega), List.get?_eq_get (by omega)]
  rfl

/-- A 32-bit read inside the buffer never fails. -/
theorem read_u32_isSome (data : List Nat) (off : Nat) (h : off + 4 ≤ data.length) :
    (read_u32_le data off).isSome := by
  rw [read_u32_le, List.get?_eq_get (by omega), List.get?_eq_get (by omega),
    List.get?_eq_get (by omega), List.get?_eq_get (by omega)]
  rfl

/-- The validation tally update performs no out-of-bounds read. -/
theorem validationStep_isSome (data : List Nat) (rty rlen cs : Nat) (v : FileValidation) :
    (validationStep data rty rlen cs v).isSome := by
  rw [validationStep]
  split_ifs with h1 h2 h3 h4 h5
  · rfl
  · rfl
  · obtain ⟨x, hx⟩ := Option.isSome_iff_exists.mp (read_u32_isSome data cs (by omega))
    rw [hx]
    rfl
  · rfl
  · rfl
  · rfl

/-- The extraction action performs no out-of-bounds read. -/
theorem parseStep_isSome (data : List Nat) (rty rlen pos : Nat) (st : ParseState) :
    (parseStep data rty rlen pos st).isSome := by
  rw [parseStep]
  split_ifs with h1 h2 h3 h4 h5
  · rfl
  · obtain ⟨x, hx⟩ := Option.isSome_iff_exists.mp (read_u32_isSome data (pos + 8) (by omega))
    rw [hx]
    rfl
  · rfl
  · rfl
  · rfl
  · rfl

/-- The validation traversal, bounded by the buffer, never reads out of
bounds: the result is always produced. The induction is on the width of
the scanned interval, which shrinks both on descent into a container and
on the step to the next record. -/
theorem scanRecords_isSome (data : List Nat) : ∀ (n pos end_ : Nat) (v : FileValidation),
    end_ - pos ≤ n → end_ ≤ data.length → (scanRecords data pos end_ v).isSome := by
  intro n
  induction n with
  | zero =>
    intro pos end_ v hm hlen
    rw [scanRecords, dif_neg (by omega)]
    rfl
  | succ n ih =>
    intro pos end_ v hm hlen
    rw [scanRecords]
    by_cases h8 : pos + 8 ≤ end_
    · rw [dif_pos h8]
      obtain ⟨rvi, hrvi⟩ := Option.isSome_iff_exists.mp (read_u16_isSome data pos (by omega))
      obtain ⟨rty, hrty⟩ := Option.isSome_iff_exists.mp (read_u16_isSome data (pos + 2) (by omega))
      obtain ⟨rlen, hrlen⟩ := Option.isSome_iff_exists.mp (read_u32_isSome data (pos + 4) (by omega))
      rw [hrvi, hrty, hrlen]
      dsimp only
      by_cases hmf : end_ < pos + 8 + rlen ∨ data.length < pos + 8 + rlen
      · rw [dif_pos hmf]
        rfl
      · rw [dif_neg hmf]
        obtain ⟨v2, hv2⟩ := Option.isSome_iff_exists.mp
          (validationStep_isSome data rty rlen (pos + 8) v)
        rw [hv2]
        dsimp only
        have hchild : (if rvi % 16 = 0xF then
            scanRecords data (pos + 8) (pos + 8 + rlen) v2 else some v2).isSome := by
          by_cases hver : rvi % 16 = 0xF
          · rw [if_pos hver]
            exact ih (pos + 8) (pos + 8 + rlen) v2 (by omega) (by omega)
          · rw [if_neg hver]
            rfl
        obtain ⟨v3, hv3⟩ := Option.isSome_iff_exists.mp hchild
        rw [hv3]
        dsimp only
        exact ih (pos + 8 + rlen) end_ v3 (by omega) hlen
    · rw [dif_neg h8]
      rfl

/-- The extraction traversal, bounded by the buffer, never reads out of
bounds. -/
theorem parseRecords_isSome (data : List Nat) : ∀ (n pos end_ : Nat) (st : ParseState),
    end_ - pos ≤ n → end_ ≤ data.length → (parseRecords data pos end_ st).isSome := by
  intro n
  induction n with
  | zero =>
    intro pos end_ st hm hlen
    rw [parseRecords, dif_neg (by omega)]
    rfl
  | succ n ih =>
    intro pos end_ st hm hlen
    rw [parseRecords]
    by_cases h8 : pos + 8 ≤ end_
    · rw [dif_pos h8]
      obtain ⟨rvi, hrvi⟩ := Option.isSome_iff_exists.mp (read_u16_isSome data pos (by omega))
      obtain ⟨rty, hrty⟩ := Option.isSome_iff_exists.mp (read_u16_isSome data (pos + 2) (by omega))
      obtain ⟨rlen, hrlen⟩ := Option.isSome_iff_exists.mp (read_u32_isSome data (pos + 4) (by omega))
      rw [hrvi, hrty, hrlen]
      dsimp only
      by_cases hmf : end_ < pos + 8 + rlen ∨ data.length < pos + 8 + rlen
      · rw [dif_pos hmf]
        rfl
      · rw [dif_neg hmf]
        obtain ⟨st2, hst2⟩ := Option.isSome_iff_exists.mp (parseStep_isSome data rty rlen pos st)
        rw [hst2]
        dsimp only
        have hchild : (if rvi % 16 = 0xF then
            parseRecords data (pos + 8) (pos + 8 + rlen) st2 else some st2).isSome := by
          by_cases hver : rvi % 16 = 0xF
          · rw [if_pos hver]
            exact ih (pos + 8) (pos + 8 + rlen) st2 (by omega) (by omega)
          · rw [if_neg hver]
            rfl
        obtain ⟨st3, hst3⟩ := Option.isSome_iff_exists.mp hchild
        rw [hst3]
        dsimp only
        exact ih (pos + 8 + rlen) end_ st3 (by omega) hlen
    · rw [dif_neg h8]
      rfl

/-- C10: both legacy record traversals terminate (they are well-founded
recursions on the width of the scanned interval, which a record always
shrinks by at least the 8-byte header, and which strictly bounds every
container descent) and perform no out-of-bounds access on any interval
that lies inside the buffer: the Option-valued embedding, in which every
byte read of the Rust code is bounds-checked, always returns a result. -/
theorem C10_traversals_total :
    (∀ (data : List Nat) (pos end_ : Nat) (v : FileValidation),
      end_ ≤ data.length → (scanRecords data pos end_ v).isSome) ∧
    (∀ (data : List Nat) (pos end_ : Nat) (st : ParseState),
      end_ ≤ data.length → (parseRecords data pos end_ st).isSome) :=
  ⟨fun data pos end_ v hlen => scanRecords_isSome data (end_ - pos) pos end_ v le_rfl hlen,
   fun data pos end_ st hlen => parseRecords_isSome data (end_ - pos) pos end_ st le_rfl hlen⟩

/-- C10 witness: the traversals of a concrete 16-byte buffer holding one
record whose declared length overflows the scope produce results. -/
theorem C10_traversals_total_witness :
    ((16 : Nat) ≤ (List.replicate 16 255).length ∧
      (scanRecords (List.replicate 16 255) 0 16 (initValidation 16)).isSome) ∧
    ((16 : Nat) ≤ (List.replicate 16 255).length ∧
      (parseRecords (List.replicate 16 255) 0 16 ⟨[], TextType.Body, 0⟩).isSome) :=
  ⟨⟨by decide, C10_traversals_total.1 _ 0 16 _ (by decide)⟩,
   ⟨by decide, C10_traversals_total.2 _ 0 16 _ (by decide)⟩⟩

/-- Whether an entry has Title or CenterTitle purpose. -/
def isTitleType (e : TextEntry) : Bool :=
  match e.text_type with
  | TextType.Title => true
  | TextType.CenterTitle => true
  | _ => false

/-- Stable insertion by byte position: walk past strictly smaller keys, so
an inserted element lands before every element of equal key that followed
it (the insertion image of the stable sort_by_key of the code). -/
def insertPos (e : TextEntry) : List TextEntry → List TextEntry
  | [] => [e]
  | x :: xs => if x.position < e.position then x :: insertPos e xs else e :: x :: xs

/-- Stable sort by byte position (model of Vec::sort_by_key, stable). -/
def sortPos : List TextEntry → List TextEntry
  | [] => []
  | e :: xs => insertPos e (sortPos xs)

/-- One step of the grouping loop of organize_into_slides: state is
(finished groups, current group, last slide hint). -/
def groupHintStep (st : List (List TextEntry) × List TextEntry × Nat) (e : TextEntry) :
    List (List TextEntry) × List TextEntry × Nat :=
  if e.slide_hint ≠ st.2.2 ∧ st.2.1 ≠ [] then (st.1 ++ [st.2.1], [e], e.slide_hint)
  else (st.1, st.2.1 ++ [e], e.slide_hint)

/-- Close the grouping loop: push a nonempty current group. -/
def finishGroups (st : List (List TextEntry) × List TextEntry × Nat) : List (List TextEntry) :=
  if st.2.1 ≠ [] then st.1 ++ [st.2.1] else st.1

/-- The grouping loop of organize_into_slides. -/
def groupByHintLoop (entries : List TextEntry) : List (List TextEntry) :=
  finishGroups (entries.foldl groupHintStep ([], [], 0))

/-- One step of split_by_titles: state is (finished groups, current group). -/
def titleStep (st : List (List TextEntry) × List TextEntry) (e : TextEntry) :
    List (List TextEntry) × List TextEntry :=
  if isTitleType e ∧ st.2 ≠ [] then (st.1 ++ [st.2], [e])
  else (st.1, st.2 ++ [e])

/-- split_by_titles from crates/ppt/src/parser.rs. -/
def split_by_titles (entries : List TextEntry) : List (List TextEntry) :=
  let st := entries.foldl titleStep ([], [])
  if st.2 ≠ [] then st.1 ++ [st.2] else st.1

/-- The slide built from one group by the code: stable-sort the group by
byte position, then keep the Title and CenterTitle entries, then the
remaining entries. -/
def slideFromGroup (number : Nat) (g : List TextEntry) : ExtractedSlide :=
  let sorted := sortPos g
  ⟨number, ((sorted.filter isTitleType).map (fun e => SlideText.mk e.text)) ++
    ((sorted.filter (fun e => ¬ isTitleType e)).map (fun e => SlideText.mk e.text))⟩

/-- organize_into_slides from crates/ppt/src/parser.rs. -/
def organize_into_slides (entries : List TextEntry) : List ExtractedSlide :=
  if entries = [] then []
  else
    let groups0 := groupByHintLoop entries
    let groups := if groups0.length = 1 ∧ 1 < (groups0.headD []).length
      then split_by_titles entries else groups0
    (groups.enum.map (fun p => slideFromGroup (p.1 + 1) p.2)).filter
      (fun s => s.lines ≠ [])

/-- Maximal runs of equal persistence-marker count, as the specification
words it: a new group starts exactly where the count changes. -/
def chunkByHint : List TextEntry → List (List TextEntry)
  | [] => []
  | e :: rest =>
    (e :: rest.takeWhile (fun x => x.slide_hint = e.slide_hint)) ::
      chunkByHint (rest.dropWhile (fun x => x.slide_hint = e.slide_hint))
termination_by l => l.length
decreasing_by
  simp only [List.length_cons]
  exact Nat.lt_succ_of_le (List.dropWhile_sublist _).length_le

/-- Groups re-split at titles, as the specification words it: every
Title or CenterTitle entry other than the first starts a new group. -/
def chunkByTitles : List TextEntry → List (List TextEntry)
  | [] => []
  | e :: rest =>
    (e :: rest.takeWhile (fun x => ¬ isTitleType x)) ::
      chunkByTitles (rest.dropWhile (fun x => ¬ isTitleType x))
termination_by l => l.length
decreasing_by
  simp only [List.length_cons]
  exact Nat.lt_succ_of_le (List.dropWhile_sublist _).length_le

/-- Lines of one group as the specification words them: the Title and
CenterTitle entries in byte-offset order, then the remaining entries in
byte-offset order. -/
def specSlideLines (g : List TextEntry) : List SlideText :=
  ((sortPos (g.filter isTitleType)).map (fun e => SlideText.mk e.text)) ++
    ((sortPos (g.filter (fun e => ¬ isTitleType e))).map (fun e => SlideText.mk e.text))

/-- Slide assembly as claim C1 words it: group by persistence count,
fall back to title splitting when that yields a single group of more than
one entry, build each slide, drop groups with no lines, and number the
kept slides 1..N in group order. -/
def organizeSpecC1 (entries : List TextEntry) : List ExtractedSlide :=
  let gs0 := chunkByHint entries
  let gs := if gs0.length = 1 ∧ 1 < (gs0.headD []).length then chunkByTitles entries else gs0
  ((gs.map specSlideLines).filter (fun ls => ls ≠ [])).enum.map
    (fun p => ⟨p.1 + 1, p.2⟩)

/-- Unfolding rule: no entries, no chunks. -/
theorem chunkByHint_nil : chunkByHint [] = [] := by
  rw [chunkByHint.eq_def]

/-- Unfolding rule for a leading entry. -/
theorem chunkByHint_cons (e : TextEntry) (rest : List TextEntry) :
    chunkByHint (e :: rest) =
      (e :: rest.takeWhile (fun x => x.slide_hint = e.slide_hint)) ::
        chunkByHint (rest.dropWhile (fun x => x.slide_hint = e.slide_hint)) := by
  rw [chunkByHint.eq_def]

/-- Unfolding rule: no entries, no chunks. -/
theorem chunkByTitles_nil : chunkByTitles [] = [] := by
  rw [chunkByTitles.eq_def]

/-- Unfolding rule for a leading entry. -/
theorem chunkByTitles_cons (e : TextEntry) (rest : List TextEntry) :
    chunkByTitles (e :: rest) =
      (e :: rest.takeWhile (fun x => ¬ isTitleType x)) ::
        chunkByTitles (rest.dropWhile (fun x => ¬ isTitleType x)) := by
  rw [chunkByTitles.eq_def]

/-- Recursive image of the grouping loop from an arbitrary state. -/
def chunkFrom : List TextEntry → Nat → List TextEntry → List (List TextEntry)
  | cur, _, [] => if cur = [] then [] else [cur]
  | cur, lh, e :: rest =>
    if e.slide_hint ≠ lh ∧ cur ≠ [] then cur :: chunkFrom [e] e.slide_hint rest
    else chunkFrom (cur ++ [e]) e.slide_hint rest

/-- The grouping fold computes chunkFrom. -/
theorem foldl_groupHintStep (entries : List TextEntry) :
    ∀ (gs : List (List TextEntry)) (cur : List TextEntry) (lh : Nat),
      finishGroups (entries.foldl groupHintStep (gs, cur, lh)) = gs ++ chunkFrom cur lh entries := by
  induction entries with
  | nil =>
    intro gs cur lh
    rw [List.foldl_nil, finishGroups, chunkFrom]
    by_cases hc : cur = []
    · simp [hc]
    · simp [hc]
  | cons e rest ih =>
    intro gs cur lh
    rw [List.foldl_cons, chunkFrom]
    by_cases hsplit : e.slide_hint ≠ lh ∧ cur ≠ []
    · rw [if_pos hsplit, show groupHintStep (gs, cur, lh) e = (gs ++ [cur], [e], e.slide_hint) from
        by rw [groupHintStep, if_pos hsplit]]
      rw [ih]
      simp
    · rw [if_neg hsplit, show groupHintStep (gs, cur, lh) e = (gs, cur ++ [e], e.slide_hint) from
        by rw [groupHintStep, if_neg hsplit]]
      exact ih gs (cur ++ [e]) e.slide_hint

/-- chunkFrom from a nonempty current group with its last hint produces
that group extended by the run of equal hints, then the chunks of the
rest. -/
theorem chunkFrom_run (rest : List TextEntry) :
    ∀ (cur : List TextEntry) (lh : Nat), cur ≠ [] →
      chunkFrom cur lh rest =
        (cur ++ rest.takeWhile (fun x => x.slide_hint = lh)) ::
          chunkByHint (rest.dropWhile (fun x => x.slide_hint = lh)) := by
  induction rest with
  | nil =>
    intro cur lh hc
    rw [chunkFrom, if_neg hc]
    simp [chunkByHint_nil]
  | cons e r ih =>
    intro cur lh hc
    by_cases he : e.slide_hint = lh
    · rw [chunkFrom, if_neg (by simp [he]), he, ih (cur ++ [e]) lh (by simp),
        List.takeWhile_cons, List.dropWhile_cons]
      simp [he]
    · rw [chunkFrom, if_pos ⟨he, hc⟩, ih [e] e.slide_hint (by simp),
        List.takeWhile_cons, List.dropWhile_cons,
        if_neg (by simpa using he), if_neg (by simpa using he), chunkByHint_cons]
      simp
  
/-- The grouping loop of the code computes the specification chunking. -/
theorem groupByHintLoop_eq_chunk (entries : List TextEntry) :
    groupByHintLoop entries = chunkByHint entries := by
  rw [groupByHintLoop, foldl_groupHintStep entries [] [] 0, List.nil_append]
  match entries with
  | [] =>
    rw [chunkFrom, chunkByHint_nil, if_pos rfl]
  | e :: rest =>
    rw [chunkFrom, if_neg (by simp), List.nil_append,
      chunkFrom_run rest [e] e.slide_hint (by simp), chunkByHint_cons]
    simp

/-- Recursive image of the title-splitting loop from an arbitrary current
group. -/
def chunkFromT : List TextEntry → List TextEntry → List (List TextEntry)
  | cur, [] => if cur = [] then [] else [cur]
  | cur, e :: rest =>
    if isTitleType e ∧ cur ≠ [] then cur :: chunkFromT [e] rest
    else chunkFromT (cur ++ [e]) rest

/-- The title-splitting fold computes chunkFromT. -/
theorem foldl_titleStep (entries : List TextEntry) :
    ∀ (gs : List (List TextEntry)) (cur : List TextEntry),
      (let st := entries.foldl titleStep (gs, cur)
       if st.2 ≠ [] then st.1 ++ [st.2] else st.1) = gs ++ chunkFromT cur entries := by
  induction entries with
  | nil =>
    intro gs cur
    rw [List.foldl_nil, chunkFromT]
    by_cases hc : cur = []
    · simp [hc]
    · simp [hc]
  | cons e rest ih =>
    intro gs cur
    rw [List.foldl_cons, chunkFromT]
    by_cases hsplit : isTitleType e = true ∧ cur ≠ []
    · rw [if_pos hsplit, show titleStep (gs, cur) e = (gs ++ [cur], [e]) from
        by rw [titleStep, if_pos hsplit]]
      rw [ih]
      simp
    · rw [if_neg hsplit, show titleStep (gs, cur) e = (gs, cur ++ [e]) from
        by rw [titleStep, if_neg hsplit]]
      exact ih gs (cur ++ [e])

/-- chunkFromT from a nonempty current group produces that group extended
by the following non-title entries, then the chunks of the rest. -/
theorem chunkFromT_run (rest : List TextEntry) :
    ∀ cur : List TextEntry, cur ≠ [] →
      chunkFromT cur rest =
        (cur ++ rest.takeWhile (fun x => ¬ isTitleType x)) ::
          chunkByTitles (rest.dropWhile (fun x => ¬ isTitleType x)) := by
  induction rest with
  | nil =>
    intro cur hc
    rw [chunkFromT, if_neg hc]
    simp [chunkByTitles_nil]
  | cons e r ih =>
    intro cur hc
    by_cases he : isTitleType e = true
    · rw [chunkFromT, if_pos ⟨he, hc⟩, ih [e] (by simp),
        List.takeWhile_cons, List.dropWhile_cons,
        if_neg (by simp [he]), if_neg (by simp [he]), chunkByTitles_cons]
      simp
    · rw [chunkFromT, if_neg (by simp [he]), ih (cur ++ [e]) (by simp),
        List.takeWhile_cons, List.dropWhile_cons,
        if_pos (by simp [he]), if_pos (by simp [he])]
      simp

/-- split_by_titles computes the specification title chunking. -/
theorem split_by_titles_eq_chunk (entries : List TextEntry) :
    split_by_titles entries = chunkByTitles entries := by
  rw [split_by_titles, foldl_titleStep entries [] [], List.nil_append]
  match entries with
  | [] =>
    rw [chunkFromT, chunkByTitles_nil, if_pos rfl]
  | e :: rest =>
    rw [chunkFromT, if_neg (by simp), List.nil_append,
      chunkFromT_run rest [e] (by simp), chunkByTitles_cons]
    simp

/-- Membership in a stable insertion. -/
theorem mem_insertPos (a e : TextEntry) (l : List TextEntry) :
    a ∈ insertPos e l ↔ a = e ∨ a ∈ l := by
  induction l with
  | nil => simp [insertPos]
  | cons x xs ih =>
    rw [insertPos]
    by_cases h : x.position < e.position
    · rw [if_pos h]
      simp only [List.mem_cons, ih]
      tauto
    · rw [if_neg h]
      simp only [List.mem_cons]

/-- Insertion keeps a position-sorted list position-sorted. -/
theorem pairwise_insertPos (e : TextEntry) (l : List TextEntry)
    (h : l.Pairwise (fun a b => a.position ≤ b.position)) :
    (insertPos e l).Pairwise (fun a b => a.position ≤ b.position) := by
  induction l with
  | nil => simp [insertPos]
  | cons x xs ih =>
    rw [insertPos]
    rw [List.pairwise_cons] at h
    by_cases hx : x.position < e.position
    · rw [if_pos hx]
      rw [List.pairwise_cons]
      refine ⟨?_, ih h.2⟩
      intro a ha
      rcases (mem_insertPos a e xs).mp ha with rfl | ha2
      · omega
      · exact h.1 a ha2
    · rw [if_neg hx]
      rw [List.pairwise_cons]
      refine ⟨?_, List.pairwise_cons.mpr h⟩
      intro a ha
      rcases List.mem_cons.mp ha with rfl | ha2
      · omega
      · exact le_trans (by omega) (h.1 a ha2)

/-- The stable sort is position-sorted. -/
theorem pairwise_sortPos (l : List TextEntry) :
    (sortPos l).Pairwise (fun a b => a.position ≤ b.position) := by
  induction l with
  | nil => simp [sortPos]
  | cons e xs ih => exact pairwise_insertPos e (sortPos xs) ih

/-- Inserting before a list of entries of no smaller position lands at the
front. -/
theorem insertPos_front (e : TextEntry) (l : List TextEntry)
    (h : ∀ z ∈ l, ¬ z.position < e.position) : insertPos e l = e :: l := by
  cases l with
  | nil => rfl
  | cons z zs => rw [insertPos, if_neg (h z (by simp))]

/-- Filtering commutes with stable insertion into a sorted list. -/
theorem filter_insertPos (p : TextEntry → Bool) (e : TextEntry) (s : List TextEntry)
    (hs : s.Pairwise (fun a b => a.position ≤ b.position)) :
    (insertPos e s).filter p =
      if p e then insertPos e (s.filter p) else s.filter p := by
  induction s with
  | nil =>
    rw [insertPos]
    by_cases hp : p e
    · simp [hp, insertPos]
    · simp [hp]
  | cons x xs ih =>
    rw [List.pairwise_cons] at hs
    rw [insertPos]
    by_cases hx : x.position < e.position
    · rw [if_pos hx, List.filter_cons, List.filter_cons, ih hs.2]
      by_cases hpx : p x = true
      · rw [if_pos hpx, if_pos hpx]
        by_cases hpe : p e = true
        · rw [if_pos hpe, if_pos hpe, insertPos, if_pos hx]
        · rw [if_neg hpe, if_neg hpe]
      · rw [if_neg hpx, if_neg hpx]
    · rw [if_neg hx, List.filter_cons, List.filter_cons]
      by_cases hpe : p e = true
      · rw [if_pos hpe, if_pos hpe]
        by_cases hpx : p x = true
        · rw [if_pos hpx, insertPos, if_neg hx]
        · rw [if_neg hpx, insertPos_front]
          intro z hz
          have hzm : z ∈ xs := List.mem_of_mem_filter hz
          have := hs.1 z hzm
          omega
      · rw [if_neg hpe, if_neg hpe]

/-- Filtering commutes with the stable sort. -/
theorem filter_sortPos (p : TextEntry → Bool) (l : List TextEntry) :
    (sortPos l).filter p = sortPos (l.filter p) := by
  induction l with
  | nil => rfl
  | cons e xs ih =>
    rw [sortPos, filter_insertPos p e (sortPos xs) (pairwise_sortPos xs), List.filter_cons]
    by_cases hpe : p e
    · rw [if_pos hpe, if_pos (by simpa using hpe), ih, sortPos]
    · rw [if_neg hpe, if_neg (by simpa using hpe), ih]

/-- Insertion adds one element to the length. -/
theorem length_insertPos (e : TextEntry) (l : List TextEntry) :
    (insertPos e l).length = l.length + 1 := by
  induction l with
  | nil => rfl
  | cons x xs ih =>
    rw [insertPos]
    by_cases h : x.position < e.position
    · rw [if_pos h]
      simp [ih]
    · rw [if_neg h]
      simp

/-- The stable sort preserves length. -/
theorem length_sortPos (l : List TextEntry) : (sortPos l).length = l.length := by
  induction l with
  | nil => rfl
  | cons e xs ih => rw [sortPos, length_insertPos, ih, List.length_cons]

/-- The lines of the slide the code builds from one group are exactly the
lines the specification prescribes. -/
theorem slideFromGroup_lines (n : Nat) (g : List TextEntry) :
    (slideFromGroup n g).lines = specSlideLines g := by
  rw [slideFromGroup, specSlideLines]
  rw [filter_sortPos, filter_sortPos]

/-- A Boolean filter and its negation split the length of a list. -/
theorem length_filter_split {α : Type} (p : α → Bool) (l : List α) :
    (l.filter p).length + (l.filter (fun x => ¬ p x)).length = l.length := by
  induction l with
  | nil => rfl
  | cons x xs ih =>
    rw [List.filter_cons, List.filter_cons]
    by_cases hp : p x = true
    · rw [if_pos hp, if_neg (by simp [hp])]
      simp only [List.length_cons]
      omega
    · rw [if_neg hp, if_pos (by simp [hp])]
      simp only [List.length_cons]
      omega

/-- A slide built from a nonempty group has lines. -/
theorem slideFromGroup_lines_ne (n : Nat) (g : List TextEntry) (hg : g ≠ []) :
    (slideFromGroup n g).lines ≠ [] := by
  rw [slideFromGroup]
  intro hcon
  have hlen := congrArg List.length hcon
  simp only [List.length_append, List.length_map, List.length_nil] at hlen
  have hsplit := length_filter_split isTitleType (sortPos g)
  rw [length_sortPos] at hsplit
  have : g.length = 0 := by omega
  exact hg (List.length_eq_zero.mp this)

/-- Every chunk of the hint chunking is nonempty. -/
theorem chunkByHint_ne_nil (l : List TextEntry) : ∀ g ∈ chunkByHint l, g ≠ [] := by
  induction l using chunkByHint.induct with
  | case1 => rw [chunkByHint_nil]; simp
  | case2 e rest ih =>
    rw [chunkByHint_cons]
    intro g hg
    rcases List.mem_cons.mp hg with rfl | hg2
    · simp
    · exact ih g hg2

/-- Every chunk of the title chunking is nonempty. -/
theorem chunkByTitles_ne_nil (l : List TextEntry) : ∀ g ∈ chunkByTitles l, g ≠ [] := by
  induction l using chunkByTitles.induct with
  | case1 => rw [chunkByTitles_nil]; simp
  | case2 e rest ih =>
    rw [chunkByTitles_cons]
    intro g hg
    rcases List.mem_cons.mp hg with rfl | hg2
    · simp
    · exact ih g hg2

/-- Assembling slides from nonempty groups: numbering before the
empty-lines filter (as the code does) agrees with filtering before
numbering (as the specification words it), because no nonempty group
produces an empty line list. -/
theorem assembly_eq (gs : List (List TextEntry)) (hne : ∀ g ∈ gs, g ≠ []) :
    (gs.enum.map (fun p => slideFromGroup (p.1 + 1) p.2)).filter (fun s => s.lines ≠ []) =
    ((gs.map specSlideLines).filter (fun ls => ls ≠ [])).enum.map
      (fun p => (⟨p.1 + 1, p.2⟩ : ExtractedSlide)) := by
  have hmem : ∀ p ∈ gs.enum, p.2 ∈ gs := by
    intro p hp
    exact List.snd_mem_of_mem_enum hp
  have h1 : (gs.enum.map (fun p => slideFromGroup (p.1 + 1) p.2)).filter
      (fun s => s.lines ≠ []) = gs.enum.map (fun p => slideFromGroup (p.1 + 1) p.2) := by
    rw [List.filter_eq_self]
    intro s hs
    obtain ⟨p, hp, rfl⟩ := List.mem_map.mp hs
    simpa using slideFromGroup_lines_ne (p.1 + 1) p.2 (hne p.2 (hmem p hp))
  have h2 : (gs.map specSlideLines).filter (fun ls => ls ≠ []) = gs.map specSlideLines := by
    rw [List.filter_eq_self]
    intro ls hls
    obtain ⟨g, hg, rfl⟩ := List.mem_map.mp hls
    have := slideFromGroup_lines_ne 1 g (hne g hg)
    rw [slideFromGroup_lines] at this
    simpa using this
  rw [h1, h2, List.enum_map, List.map_map]
  refine List.map_congr_left ?_
  intro p hp
  have hlines := slideFromGroup_lines (p.1 + 1) p.2
  show slideFromGroup (p.1 + 1) p.2 = ⟨(Prod.map id specSlideLines p).1 + 1, (Prod.map id specSlideLines p).2⟩
  cases hsk : slideFromGroup (p.1 + 1) p.2 with
  | mk num lines =>
    have hnum : num = p.1 + 1 := by
      have := congrArg ExtractedSlide.number hsk
      simpa [slideFromGroup] using this.symm
    have hl : lines = specSlideLines p.2 := by
      have := congrArg ExtractedSlide.lines hsk
      rw [hlines] at this
      exact this.symm
    simp [hnum, hl, Prod.map]

/-- C1: organize_into_slides computes exactly the specified slide
assembly: grouping by persistence-marker count with a new group at each
count change, the title-based re-split when that yields a single group of
more than one entry, per-group lines as titles then body in byte-offset
order, empty groups dropped, and slide numbers 1..N in group order. -/
theorem C1_slide_assembly (entries : List TextEntry) :
    organize_into_slides entries = organizeSpecC1 entries := by
  rw [organize_into_slides, organizeSpecC1]
  by_cases hemp : entries = []
  · subst hemp
    rw [if_pos rfl, chunkByHint_nil]
    simp
  · rw [if_neg hemp, groupByHintLoop_eq_chunk]
    dsimp only
    by_cases hcond : (chunkByHint entries).length = 1 ∧ 1 < ((chunkByHint entries).headD []).length
    · rw [if_pos hcond, if_pos hcond, split_by_titles_eq_chunk]
      exact assembly_eq (chunkByTitles entries) (chunkByTitles_ne_nil entries)
    · rw [if_neg hcond, if_neg hcond]
      exact assembly_eq (chunkByHint entries) (chunkByHint_ne_nil entries)

/-- C2 witness: the amended decoder agrees with the code on a concrete
two-byte body. -/
theorem C2_ansi_amended_witness :
    (∀ b ∈ [72, 0x81, 105], b < 256) ∧
    extract_ansi_text [72, 0x81, 105] 0 3 =
      (if (3 : Nat) = 0 ∨ ([72, 0x81, 105] : List Nat).length < 0 + 3 then none
       else ansiDecodeAmendedC2 ((([72, 0x81, 105] : List Nat).drop 0).take 3)) :=
  ⟨by decide, C2_ansi_amended [72, 0x81, 105] 0 3 (by decide)⟩

/-- The title predicate as claim C3 words it, parameterized by the length
measure applied to the comparison-normalized text (the byte measure
utf8Len recovers the code; the claim asserts a character count). -/
def likelyTitleWith (measure : List Char → Nat) (text nf : List Char) : Bool :=
  let nt := normalize_for_comparison text
  if measure nt < 2 then false
  else if 60 < measure nt then false
  else (7 : Rat) / 10 ≤ calculate_similarity nt nf

/-- Title search as the claim words it: the first run of the list whose
trimmed text passes the title predicate, with its index and its normalized
text. -/
def specFindTitle (measure : List Char → Nat) (pf : Bool) (nf : List Char)
    (lines : List SlideText) : Option (Nat × List Char) :=
  (lines.enum.find? (fun q => likelyTitleWith measure (rsTrim q.2.text) nf)).map
    (fun q => (q.1, normalize_line pf (rsTrim q.2.text)))

/-- Presentation normalization with title detection as claim C3 words it,
parameterized by the length measure of the title predicate: scan only the
first slide in order, return the first accepted run's normalized text as
the title, exclude exactly that run, and normalize every other run of
every slide in slide order then run order. -/
def specNormalizeWithTitle (measure : List Char → Nat) (pf : Bool)
    (slides : List ExtractedSlide) (filename : List Char) :
    Option (List Char) × List (List Char) :=
  let nf := extract_song_name_from_filename filename
  let found : Option (Nat × List Char) :=
    match slides.head? with
    | some s1 => specFindTitle measure pf nf s1.lines
    | none => none
  (found.map Prod.snd,
   (slides.enum).flatMap (fun p =>
     (p.2.lines.enum).flatMap (fun q =>
       if p.1 = 0 ∧ (found.any fun f => q.1 = f.1)
       then [] else normalize_to_lines pf q.2.text)))

/-- The code title predicate is the claimed predicate at the byte measure. -/
theorem is_likely_title_eq_bytes (text nf : List Char) :
    is_likely_title text nf = likelyTitleWith utf8Len text nf := rfl

/-- The title-scanning loop of the code is the specified first-match
search, for any starting index. -/
theorem findTitle_eq_find (pf : Bool) (nf : List Char) (lines : List SlideText) :
    ∀ i : Nat,
      findTitle pf nf i lines =
        ((List.enumFrom i lines).find? (fun q => is_likely_title (rsTrim q.2.text) nf)).map
          (fun q => (q.1, normalize_line pf (rsTrim q.2.text))) := by
  induction lines with
  | nil => intro i; rfl
  | cons t rest ih =>
    intro i
    rw [findTitle, List.enumFrom_cons, List.find?_cons]
    by_cases h : is_likely_title (rsTrim t.text) nf = true
    · rw [if_pos h]
      simp only [h]
      rfl
    · rw [if_neg h]
      simp only [Bool.of_not_eq_true h]
      exact ih (i + 1)

/-- The skip test of the code (membership of the run index in the
title-index list) agrees with the skip test of the specification
(equality with the found index). -/
theorem titleIdxs_contains_iff (found : Option (Nat × List Char)) (j : Nat) :
    ((match found with | some pr => [pr.1] | none => ([] : List Nat)).contains j = true) ↔
      ((found.any fun f => j = f.1) = true) := by
  cases found with
  | none => simp [Option.any]
  | some pr =>
    simp only [Option.any, List.contains, List.elem_cons, List.elem_nil, decide_eq_true_eq]
    constructor
    · intro h
      rcases Bool.or_eq_true_iff.mp h with h1 | h1
      · exact beq_iff_eq.mp h1
      · simp at h1
    · intro h
      exact Bool.or_eq_true_iff.mpr (Or.inl (beq_iff_eq.mpr h))

/-- C3 (amended): normalize_presentation_with_title behaves exactly as the
claim describes with one change: the below-2 / above-60 length window of
the title predicate measures the comparison-normalized text in UTF-8
bytes, not in characters. -/
theorem C3_title_detection_amended (pf : Bool) (slides : List ExtractedSlide)
    (filename : List Char) :
    normalize_presentation_with_title pf slides filename =
      specNormalizeWithTitle utf8Len pf slides filename := by
  rw [normalize_presentation_with_title, specNormalizeWithTitle]
  have hfound : (match slides.head? with
      | some s1 => findTitle pf (extract_song_name_from_filename filename) 0 s1.lines
      | none => none) =
      (match slides.head? with
      | some s1 =>
        specFindTitle utf8Len pf (extract_song_name_from_filename filename) s1.lines
      | none => none) := by
    cases slides.head? with
    | none => rfl
    | some s1 =>
      dsimp only
      rw [findTitle_eq_find, specFindTitle]
      rfl
  rw [hfound]
  set found := (match slides.head? with
      | some s1 =>
        specFindTitle utf8Len pf (extract_song_name_from_filename filename) s1.lines
      | none => none) with hfdef
  refine congrArg (Prod.mk (found.map Prod.snd)) ?_
  rw [show ∀ l : List (Nat × ExtractedSlide), ∀ f : (Nat × ExtractedSlide) → List (List Char),
      l.flatMap f = (l.map f).flatten from fun l f => rfl]
  refine congrArg List.flatten (List.map_congr_left ?_)
  intro p hp
  rw [show ∀ l : List (Nat × SlideText), ∀ f : (Nat × SlideText) → List (List Char),
      l.flatMap f = (l.map f).flatten from fun l f => rfl]
  refine congrArg List.flatten (List.map_congr_left ?_)
  intro q hq
  by_cases hc : p.1 = 0 ∧ ((match found with | some pr => [pr.1] | none => ([] : List Nat)).contains q.1 = true)
  · rw [if_pos hc, if_pos ⟨hc.1, (titleIdxs_contains_iff found q.1).mp hc.2⟩]
  · rw [if_neg hc, if_neg (fun hcon => hc ⟨hcon.1, (titleIdxs_contains_iff found q.1).mpr hcon.2⟩)]

/-- The single-slide, single-run presentation used to separate the byte
and character readings of the title length window: its one run is the
two-byte, one-character letter U+00E9. -/
def c3Slides : List ExtractedSlide := [⟨1, [⟨[Char.ofNat 0xE9]⟩]⟩]

/-- The filename of the C3 counterexample. -/
def c3Filename : List Char := String.toList "é.pptx"

/-- C3 counterexample: the one-character run é (two UTF-8 bytes) against
the filename é.pptx. The claim (character count) rejects the run as
shorter than 2 and detects no title; the code (byte count) accepts it
and returns it as the title. -/
theorem C3_title_counterexample :
    (normalize_presentation_with_title true c3Slides c3Filename).1 = some [Char.ofNat 0xE9] ∧
    (specNormalizeWithTitle List.length true c3Slides c3Filename).1 = none ∧
    some [Char.ofNat 0xE9] ≠ (none : Option (List Char)) := by
  have hnf : extract_song_name_from_filename c3Filename = [Char.ofNat 0xE9] := by decide
  have hnc : normalize_for_comparison [Char.ofNat 0xE9] = [Char.ofNat 0xE9] := by decide
  have htrim : rsTrim [Char.ofNat 0xE9] = [Char.ofNat 0xE9] := by decide
  have hsim : calculate_similarity [Char.ofNat 0xE9] [Char.ofNat 0xE9] = 1 :=
    sim_eq_one _ (by decide)
  have hlik : is_likely_title [Char.ofNat 0xE9] [Char.ofNat 0xE9] = true := by
    rw [is_likely_title]
    simp only [hnc]
    rw [if_neg (by decide), if_neg (by decide), hsim]
    norm_num
  refine ⟨?_, ?_, by decide⟩
  · rw [normalize_presentation_with_title, c3Slides]
    simp only [List.head?_cons]
    rw [findTitle]
    simp only [htrim, hnf, hlik]
    rw [if_pos trivial]
    rw [show normalize_line true [Char.ofNat 0xE9] = [Char.ofNat 0xE9] from by decide]
    rfl
  · rw [specNormalizeWithTitle, c3Slides]
    simp only [List.head?_cons]
    rw [specFindTitle]
    have hnot : likelyTitleWith List.length (rsTrim [Char.ofNat 0xE9])
        (extract_song_name_from_filename c3Filename) = false := by
      rw [htrim, hnf, likelyTitleWith]
      simp only [hnc]
      rw [if_pos (by decide)]
    simp only [List.enum, List.enumFrom, List.find?_cons, hnot]
    rfl

/-- One relationship of the presentation manifest, by its attributes. -/
structure RelEntry where
  id : List Char
  relType : List Char
  target : List Char
deriving DecidableEq

/-- str::trim_end_matches: remove every repetition of the pattern from the
end. The fuel argument (at least the string length) makes the recursion
structural; each removal shortens the string, so the fuel is never
exhausted first. -/
def removeSuffixRepFuel (pat : List Char) : Nat → List Char → List Char
  | 0, s => s
  | fuel + 1, s =>
    if pat ≠ [] ∧ isPrefixB pat.reverse s.reverse = true then
      removeSuffixRepFuel pat fuel (s.take (s.length - pat.length))
    else s

/-- str::trim_end_matches with the fuel filled in. -/
def removeSuffixRep (pat s : List Char) : List Char := removeSuffixRepFuel pat s.length s

/-- ASCII digit test. -/
def isAsciiDigit (c : Char) : Bool := 48 ≤ c.toNat ∧ c.toNat ≤ 57

/-- str::parse::<usize> on a digit string: fails on the empty string and
on overflow past usize::MAX. -/
def parseUsize (digits : List Char) : Option Nat :=
  if digits = [] then none
  else
    let n := digits.foldl (fun acc c => acc * 10 + (c.toNat - 48)) 0
    if n < 2 ^ 64 then some n else none

/-- extract_slide_number from crates/pptx/src/parser.rs: strip .xml and
.rels suffixes, take the trailing ASCII digits, parse them. -/
def extract_slide_number (s : List Char) : Option Nat :=
  let s1 := removeSuffixRep (String.toList ".xml") s
  let s2 := removeSuffixRep (String.toList ".rels") s1
  parseUsize ((s2.reverse.takeWhile isAsciiDigit).reverse)

/-- The slide-relationship test of get_slide_order. -/
def isSlideRel (relType : List Char) : Bool :=
  isSubstring (String.toList "/slide") relType ∧
  ¬ isSubstring (String.toList "slideLayout") relType ∧
  ¬ isSubstring (String.toList "slideMaster") relType

/-- The archive path resolved from a relationship target. -/
def relFullPath (target : List Char) : List Char :=
  match target with
  | c :: rest => if c = Char.ofNat 47 then rest else String.toList "ppt/" ++ target
  | [] => String.toList "ppt/"

/-- The (path, ordering hint) pairs collected from the manifest: one pair
per slide relationship, the hint from the trailing digits of the id or
else of the target. -/
def slidePairs (rels : List RelEntry) : List (List Char × Option Nat) :=
  rels.filterMap (fun r =>
    if isSlideRel r.relType then
      some (relFullPath r.target,
        (extract_slide_number r.id).orElse (fun _ => extract_slide_number r.target))
    else none)

/-- Three-way comparison of naturals. -/
def natCmp (a b : Nat) : Ordering :=
  if a < b then Ordering.lt else if a = b then Ordering.eq else Ordering.gt

/-- Three-way comparison of characters by code point. -/
def charCmp (a b : Char) : Ordering := natCmp a.toNat b.toNat

/-- Lexicographic comparison of strings (byte order of the UTF-8
encodings coincides with code-point order). -/
def lexCmp : List Char → List Char → Ordering
  | [], [] => Ordering.eq
  | [], _ :: _ => Ordering.lt
  | _ :: _, [] => Ordering.gt
  | a :: as, b :: bs =>
    match charCmp a b with
    | Ordering.eq => lexCmp as bs
    | o => o

/-- The sort comparator of get_slide_order: hinted entries by hint,
hinted before unhinted, unhinted by path string. -/
def relOrd (a b : List Char × Option Nat) : Ordering :=
  match a.2, b.2 with
  | some na, some nb => natCmp na nb
  | some _, none => Ordering.lt
  | none, some _ => Ordering.gt
  | none, none => lexCmp a.1 b.1

/-- The non-strict order induced by the comparator. -/
def relLE (a b : List Char × Option Nat) : Prop := relOrd a b ≠ Ordering.gt

instance : DecidableRel relLE := fun a b => by
  rw [relLE]
  infer_instance

/-- get_slide_order from crates/pptx/src/parser.rs, on the already-parsed
manifest entries: collect the slide relationships and stable-sort them by
the comparator (Vec::sort_by is a stable sort; a stable sort under a
total preorder is the insertion sort that keeps earlier elements in front
of later elements comparing equal). -/
def get_slide_order (rels : List RelEntry) : List (List Char) :=
  (List.insertionSort relLE (slidePairs rels)).map Prod.fst

/-- natCmp yields lt exactly below. -/
theorem natCmp_lt_iff (a b : Nat) : natCmp a b = Ordering.lt ↔ a < b := by
  rw [natCmp]
  split_ifs with h1 h2 <;> simp_all

/-- natCmp yields eq exactly at equality. -/
theorem natCmp_eq_iff (a b : Nat) : natCmp a b = Ordering.eq ↔ a = b := by
  rw [natCmp]
  split_ifs with h1 h2 <;> simp_all
  omega

/-- natCmp yields gt exactly above. -/
theorem natCmp_gt_iff (a b : Nat) : natCmp a b = Ordering.gt ↔ b < a := by
  rw [natCmp]
  split_ifs with h1 h2 <;> simp_all <;> omega

/-- Comparison flip for the lexicographic order. -/
theorem lexCmp_gt_iff : ∀ x y : List Char, lexCmp x y = Ordering.gt ↔ lexCmp y x = Ordering.lt := by
  intro x
  induction x with
  | nil =>
    intro y
    cases y <;> simp [lexCmp]
  | cons a as ih =>
    intro y
    cases y with
    | nil => simp [lexCmp]
    | cons b bs =>
      rw [lexCmp, lexCmp]
      rcases hab : charCmp a b with h | h | h
      · have hba : charCmp b a = Ordering.gt := by
          rw [charCmp, natCmp_gt_iff]
          rw [charCmp, natCmp_lt_iff] at hab
          exact hab
        simp [hba]
      · have hba : charCmp b a = Ordering.eq := by
          rw [charCmp, natCmp_eq_iff]
          rw [charCmp, natCmp_eq_iff] at hab
          omega
        simp [hba, ih bs]
      · have hba : charCmp b a = Ordering.lt := by
          rw [charCmp, natCmp_lt_iff]
          rw [charCmp, natCmp_gt_iff] at hab
          exact hab
        simp [hba]

/-- Transitivity of the non-strict lexicographic order. -/
theorem lexLe_trans : ∀ x y z : List Char,
    lexCmp x y ≠ Ordering.gt → lexCmp y z ≠ Ordering.gt → lexCmp x z ≠ Ordering.gt := by
  intro x
  induction x with
  | nil =>
    intro y z _ _
    cases z <;> simp [lexCmp]
  | cons a as ih =>
    intro y z hxy hyz
    cases y with
    | nil => rw [lexCmp] at hxy; simp at hxy
    | cons b bs =>
      cases z with
      | nil => simp [lexCmp] at hyz
      | cons c cs =>
        rw [lexCmp] at hxy hyz ⊢
        rcases hab : charCmp a b with _ | _ | _ <;> rw [hab] at hxy <;>
          rcases hbc : charCmp b c with _ | _ | _ <;> rw [hbc] at hyz
        · have hac : charCmp a c = Ordering.lt := by
            rw [charCmp, natCmp_lt_iff]
            rw [charCmp, natCmp_lt_iff] at hab hbc
            omega
          rw [hac]
          simp
        · have hac : charCmp a c = Ordering.lt := by
            rw [charCmp, natCmp_lt_iff]
            rw [charCmp, natCmp_lt_iff] at hab
            rw [charCmp, natCmp_eq_iff] at hbc
            omega
          rw [hac]
          simp
        · simp at hyz
        · have hac : charCmp a c = Ordering.lt := by
            rw [charCmp, natCmp_lt_iff]
            rw [charCmp, natCmp_eq_iff] at hab
            rw [charCmp, natCmp_lt_iff] at hbc
            omega
          rw [hac]
          simp
        · have hac : charCmp a c = Ordering.eq := by
            rw [charCmp, natCmp_eq_iff]
            rw [charCmp, natCmp_eq_iff] at hab hbc
            omega
          rw [hac]
          exact ih bs cs hxy hyz
        · simp at hyz
        · simp at hxy
        · simp at hxy
        · simp at hxy

/-- Comparison flip for the slide comparator. -/
theorem relOrd_gt_iff (a b : List Char × Option Nat) :
    relOrd a b = Ordering.gt ↔ relOrd b a = Ordering.lt := by
  rw [relOrd, relOrd]
  match a.2, b.2 with
  | some na, some nb =>
    rw [natCmp_gt_iff, natCmp_lt_iff]
  | some na, none => simp
  | none, some nb => simp
  | none, none =>
    exact lexCmp_gt_iff a.1 b.1

/-- The comparator order is total. -/
instance : IsTotal (List Char × Option Nat) relLE :=
  ⟨by
    intro a b
    by_cases h : relOrd a b = Ordering.gt
    · right
      rw [relLE, (relOrd_gt_iff a b).mp h]
      simp
    · exact Or.inl h⟩

/-- The comparator order is transitive. -/
instance : IsTrans (List Char × Option Nat) relLE :=
  ⟨by
    intro a b c hab hbc
    rw [relLE, relOrd] at *
    match ha : a.2, hb : b.2, hc : c.2 with
    | some na, some nb, some nc =>
      rw [ha, hb] at hab
      rw [hb, hc] at hbc
      dsimp only at hab hbc
      rw [Ne, natCmp_gt_iff] at hab hbc ⊢
      omega
    | some na, some nb, none => simp
    | some na, none, some nc =>
      rw [hb, hc] at hbc
      simp at hbc
    | some na, none, none => simp
    | none, some nb, some nc =>
      rw [ha, hb] at hab
      simp at hab
    | none, some nb, none =>
      rw [ha, hb] at hab
      simp at hab
    | none, none, some nc =>
      rw [hb, hc] at hbc
      simp at hbc
    | none, none, none =>
      rw [ha, hb] at hab
      rw [hb, hc] at hbc
      dsimp only at hab hbc
      exact lexLe_trans a.1 b.1 c.1 hab hbc⟩

/-- The manifest of the C9 example: three slide relationships, listed out
of order. -/
def c9Rels : List RelEntry :=
  [⟨String.toList "rId3", String.toList "a/slide", String.toList "slide3.xml"⟩,
   ⟨String.toList "rId1", String.toList "a/slide", String.toList "slide1.xml"⟩,
   ⟨String.toList "rId2", String.toList "a/slide", String.toList "slide2.xml"⟩]

/-- C9: get_slide_order emits the slide relationships stable-sorted by the
comparator, which orders hinted entries by hint ascending, all hinted
entries before all unhinted ones, and unhinted entries by path string; in
particular the manifest rId3, rId1, rId2 targeting slide3, slide1, slide2
comes out in the order slide1, slide2, slide3. -/
theorem C9_slide_order :
    (∀ a b : List Char × Option Nat, relLE a b ↔
      (match a.2, b.2 with
        | some na, some nb => na ≤ nb
        | some _, none => True
        | none, some _ => False
        | none, none => lexCmp a.1 b.1 ≠ Ordering.gt)) ∧
    (∀ rels : List RelEntry,
      List.Sorted relLE (List.insertionSort relLE (slidePairs rels)) ∧
      (List.insertionSort relLE (slidePairs rels)).Perm (slidePairs rels) ∧
      get_slide_order rels = (List.insertionSort relLE (slidePairs rels)).map Prod.fst) ∧
    get_slide_order c9Rels =
      [String.toList "ppt/slide1.xml", String.toList "ppt/slide2.xml",
       String.toList "ppt/slide3.xml"] := by
  refine ⟨?_, fun rels =>
    ⟨List.sorted_insertionSort relLE _, List.perm_insertionSort relLE _, rfl⟩, ?_⟩
  · intro a b
    rw [relLE, relOrd]
    match a.2, b.2 with
    | some na, some nb =>
      dsimp only
      rw [Ne, natCmp_gt_iff]
      omega
    | some na, none => simp
    | none, some nb => simp
    | none, none => exact Iff.rfl
  · decide

/-- The C8 counterexample: two newlines normalize to one newline, which
normalizes to the empty string, so normalization is not idempotent as
claimed. -/
theorem C8_idempotence_counterexample :
    normalize_line true [Char.ofNat 10, Char.ofNat 10] = [Char.ofNat 10] ∧
    normalize_line true (normalize_line true [Char.ofNat 10, Char.ofNat 10]) = [] ∧
    ([] : List Char) ≠ [Char.ofNat 10] := by
  refine ⟨by decide, by decide, by decide⟩

/-- Line-ending unification never leaves a carriage return. -/
theorem fixNewlines_no_cr (s : List Char) : Char.ofNat 13 ∉ fixNewlines s := by
  induction s using fixNewlines.induct <;> simp_all [fixNewlines] <;>
    (intro hcon; exact absurd hcon.symm (by assumption))

/-- Characters of the character-pass output come from the input or are the
canonical apostrophe. -/
theorem mem_phiAux (c : Char) : ∀ (p : Option Char) (l : List Char),
    c ∈ phiAux p l → c ∈ l ∨ c = apoCh := by
  intro p l
  induction l generalizing p with
  | nil => intro h; simp [phiAux] at h
  | cons x xs ih =>
    intro h
    rw [phiAux] at h
    by_cases hp : isPunct x = true
    · rw [if_pos hp] at h
      rcases ih (some x) h with h2 | h2
      · exact Or.inl (List.mem_cons_of_mem x h2)
      · exact Or.inr h2
    · rw [if_neg hp] at h
      by_cases ha : isApo x = true
      · rw [if_pos ha] at h
        by_cases hf : optAlpha p ∧ optAlpha xs.head?
        · rw [if_pos hf] at h
          rcases List.mem_cons.mp h with rfl | h2
          · exact Or.inr rfl
          · rcases ih (some x) h2 with h3 | h3
            · exact Or.inl (List.mem_cons_of_mem x h3)
            · exact Or.inr h3
        · rw [if_neg hf] at h
          rcases ih (some x) h with h2 | h2
          · exact Or.inl (List.mem_cons_of_mem x h2)
          · exact Or.inr h2
      · rw [if_neg ha] at h
        rcases List.mem_cons.mp h with rfl | h2
        · exact Or.inl (List.mem_cons_self c xs)
        · rcases ih (some x) h2 with h3 | h3
          · exact Or.inl (List.mem_cons_of_mem x h3)
          · exact Or.inr h3

/-- Characters of the collapse output come from the input or are a space. -/
theorem mem_collapseAux (c : Char) : ∀ (b : Bool) (l : List Char),
    c ∈ collapseAux b l → c ∈ l ∨ c = Char.ofNat 32 := by
  intro b l
  induction l generalizing b with
  | nil => intro h; simp [collapseAux] at h
  | cons x xs ih =>
    intro h
    rw [collapseAux] at h
    by_cases hs : isSpaceTab x = true
    · rw [if_pos hs] at h
      by_cases hb : b = true
      · subst hb
        rw [if_pos rfl] at h
        rcases ih true h with h2 | h2
        · exact Or.inl (List.mem_cons_of_mem x h2)
        · exact Or.inr h2
      · rw [if_neg hb] at h
        rcases List.mem_cons.mp h with rfl | h2
        · exact Or.inr rfl
        · rcases ih true h2 with h3 | h3
          · exact Or.inl (List.mem_cons_of_mem x h3)
          · exact Or.inr h3
    · rw [if_neg hs] at h
      rcases List.mem_cons.mp h with rfl | h2
      · exact Or.inl (List.mem_cons_self c xs)
      · rcases ih false h2 with h3 | h3
        · exact Or.inl (List.mem_cons_of_mem x h3)
        · exact Or.inr h3

/-- trimEnd keeps a subset of the characters. -/
theorem mem_trimEnd (c : Char) : ∀ l : List Char, c ∈ trimEnd l → c ∈ l := by
  intro l
  induction l with
  | nil => intro h; simp [trimEnd] at h
  | cons x xs ih =>
    intro h
    rw [trimEnd] at h
    rcases hr : trimEnd xs with _ | ⟨y, ys⟩
    · rw [hr] at h
      by_cases hw : rsIsWhitespace x = true
      · rw [if_pos hw] at h
        simp at h
      · rw [if_neg hw] at h
        rcases List.mem_singleton.mp h with rfl
        exact List.mem_cons_self c xs
    · rw [hr] at h
      rcases List.mem_cons.mp h with rfl | h2
      · exact List.mem_cons_self c xs
      · exact List.mem_cons_of_mem x (ih (hr ▸ h2))

/-- splitOnNl always produces at least one segment. -/
theorem splitOnNl_ne_nil (l : List Char) : splitOnNl l ≠ [] := by
  induction l with
  | nil => simp [splitOnNl]
  | cons c rest ih =>
    rw [splitOnNl]
    by_cases hc : c = Char.ofNat 10
    · rw [if_pos hc]
      simp
    · rw [if_neg hc]
      rcases hr : splitOnNl rest with _ | ⟨seg, segs⟩
      · simp
      · simp

/-- Characters of splitOnNl segments come from the input. -/
theorem mem_splitOnNl (c : Char) : ∀ (l : List Char) (seg : List Char),
    seg ∈ splitOnNl l → c ∈ seg → c ∈ l := by
  intro l
  induction l with
  | nil =>
    intro seg hseg hc
    rw [splitOnNl] at hseg
    rcases List.mem_singleton.mp hseg with rfl
    simp at hc
  | cons x xs ih =>
    intro seg hseg hc
    rw [splitOnNl] at hseg
    by_cases hx : x = Char.ofNat 10
    · rw [if_pos hx] at hseg
      rcases List.mem_cons.mp hseg with rfl | h2
      · simp at hc
      · exact List.mem_cons_of_mem x (ih seg h2 hc)
    · rw [if_neg hx] at hseg
      rcases hr : splitOnNl xs with _ | ⟨s0, segs⟩
      · exact absurd hr (splitOnNl_ne_nil xs)
      · rw [hr] at hseg
        rcases List.mem_cons.mp hseg with rfl | h2
        · rcases List.mem_cons.mp hc with rfl | h3
          · exact List.mem_cons_self c xs
          · exact List.mem_cons_of_mem x (ih s0 (hr ▸ List.mem_cons_self s0 segs) h3)
        · exact List.mem_cons_of_mem x (ih seg (hr ▸ List.mem_cons_of_mem s0 h2) hc)

/-- splitOnNl segments hold no newline. -/
theorem splitOnNl_no_nl : ∀ (l : List Char) (seg : List Char),
    seg ∈ splitOnNl l → Char.ofNat 10 ∉ seg := by
  intro l
  induction l with
  | nil =>
    intro seg hseg
    rw [splitOnNl] at hseg
    rcases List.mem_singleton.mp hseg with rfl
    simp
  | cons x xs ih =>
    intro seg hseg
    rw [splitOnNl] at hseg
    by_cases hx : x = Char.ofNat 10
    · rw [if_pos hx] at hseg
      rcases List.mem_cons.mp hseg with rfl | h2
      · simp
      · exact ih seg h2
    · rw [if_neg hx] at hseg
      rcases hr : splitOnNl xs with _ | ⟨s0, segs⟩
      · exact absurd hr (splitOnNl_ne_nil xs)
      · rw [hr] at hseg
        rcases List.mem_cons.mp hseg with rfl | h2
        · intro hmem
          rcases List.mem_cons.mp hmem with heq | h3
          · exact hx heq.symm
          · exact ih s0 (hr ▸ List.mem_cons_self s0 segs) h3
        · exact ih seg (hr ▸ List.mem_cons_of_mem s0 h2)

/-- Characters of a newline join come from the segments or are newlines. -/
theorem mem_joinNl (c : Char) : ∀ L : List (List Char),
    c ∈ joinNl L → c = Char.ofNat 10 ∨ ∃ seg ∈ L, c ∈ seg := by
  intro L
  induction L with
  | nil => intro h; simp [joinNl] at h
  | cons l L' ih =>
    intro h
    cases L' with
    | nil =>
      rw [joinNl] at h
      simp only [List.intersperse_single, List.flatten] at h
      right
      exact ⟨l, List.mem_cons_self l [], by simpa using h⟩
    | cons l2 L2 =>
      rw [joinNl] at h
      rw [List.intersperse_cons_cons] at h
      simp only [List.flatten_cons] at h
      rcases List.mem_append.mp h with h2 | h2
      · exact Or.inr ⟨l, List.mem_cons_self l _, h2⟩
      · rcases List.mem_append.mp h2 with h3 | h3
        · exact Or.inl (List.mem_singleton.mp h3)
        · rcases ih (by rw [joinNl]; exact h3) with h4 | h4
          · exact Or.inl h4
          · obtain ⟨seg, hseg, hc⟩ := h4
            exact Or.inr ⟨seg, List.mem_cons_of_mem l hseg, hc⟩

/-- Line-ending unification leaves a CR-free string unchanged. -/
theorem fixNewlines_noop : ∀ s : List Char, Char.ofNat 13 ∉ s → fixNewlines s = s := by
  intro s
  induction s using fixNewlines.induct with
  | case1 => intro _; rfl
  | case2 =>
    intro h
    exact absurd (List.mem_singleton_self _) h
  | case3 c hc =>
    intro _
    rw [fixNewlines, if_neg hc]
  | case4 rest ih =>
    intro h
    exact absurd (List.mem_cons_self _ _) h
  | case5 d rest hd ih =>
    intro h
    exact absurd (List.mem_cons_self _ _) h
  | case6 c d rest hc ih =>
    intro h
    rw [fixNewlines, if_neg hc, ih (fun hmem => h (List.mem_cons_of_mem c hmem))]


/-- Stripping a trailing CR from a CR-free line does nothing. -/
theorem stripTrailCR_noop (l : List Char) (h : Char.ofNat 13 ∉ l) : stripTrailCR l = l := by
  rw [stripTrailCR]
  rcases hl : l.getLast? with _ | c
  · rfl
  · have hc : c ∈ l := List.mem_of_mem_getLast? hl
    dsimp only
    rw [if_neg (fun hcr : c = Char.ofNat 13 => h (hcr ▸ hc))]

/-- On a nonempty CR-free string the line iterator is the raw newline
split, with a trailing newline dropping the final empty segment. -/
theorem rustLines_raw (s : List Char) (hne : s ≠ []) (h : Char.ofNat 13 ∉ s) :
    rustLines s =
      if s.getLast? = some (Char.ofNat 10) then (splitOnNl s).dropLast else splitOnNl s := by
  rw [rustLines, if_neg hne]
  by_cases hlast : s.getLast? = some (Char.ofNat 10)
  · rw [if_pos hlast]
    refine (List.map_congr_left ?_).trans (List.map_id _)
    intro seg hseg
    refine stripTrailCR_noop seg (fun hcr => ?_)
    exact h (mem_splitOnNl _ s seg (List.mem_of_mem_dropLast hseg) hcr)
  · rw [if_neg hlast]
    refine (List.map_congr_left ?_).trans (List.map_id _)
    intro seg hseg
    exact stripTrailCR_noop seg (fun hcr => h (mem_splitOnNl _ s seg hseg hcr))

/-- stripTrailCR keeps a subset of the characters. -/
theorem mem_stripTrailCR (c : Char) (l : List Char) (h : c ∈ stripTrailCR l) : c ∈ l := by
  rw [stripTrailCR] at h
  rcases hl : l.getLast? with _ | d
  · rw [hl] at h; exact h
  · rw [hl] at h
    dsimp only at h
    by_cases hd : d = Char.ofNat 13
    · rw [if_pos hd] at h
      exact (List.dropLast_sublist l).mem h
    · rw [if_neg hd] at h
      exact h

/-- Every line produced by the line iterator is a CR-stripped segment of
the newline split. -/
theorem mem_rustLines (seg : List Char) (s : List Char) (h : seg ∈ rustLines s) :
    ∃ raw ∈ splitOnNl s, seg = stripTrailCR raw := by
  rw [rustLines] at h
  by_cases hs : s = []
  · rw [if_pos hs] at h
    simp at h
  · rw [if_neg hs] at h
    obtain ⟨raw, hraw, rfl⟩ := List.mem_map.mp h
    by_cases hlast : s.getLast? = some (Char.ofNat 10)
    · rw [if_pos hlast] at hraw
      exact ⟨raw, List.mem_of_mem_dropLast hraw, rfl⟩
    · rw [if_neg hlast] at hraw
      exact ⟨raw, hraw, rfl⟩

/-- Characters of a processed line come from the line or are spaces. -/
theorem mem_lineProc (c : Char) (l : List Char)
    (h : c ∈ rsTrim (collapseWs l)) : c ∈ l ∨ c = Char.ofNat 32 := by
  rw [rsTrim] at h
  have h2 := mem_trimEnd c _ h
  have h3 := (List.dropWhile_sublist _).mem h2
  rcases mem_collapseAux c false l h3 with h4 | h4
  · exact Or.inl h4
  · exact Or.inr h4

/-- The character pass never leaves a carriage return (its input here is
already CR-free and the only character it introduces is the apostrophe). -/
theorem phiPass_no_cr (s : List Char) : Char.ofNat 13 ∉ phiPass (fixNewlines s) := by
  intro h
  rcases mem_phiAux _ none _ h with h2 | h2
  · exact fixNewlines_no_cr s h2
  · exact absurd h2 (by decide)

/-- The normalizer output never holds a carriage return. -/
theorem normalize_no_cr (s : List Char) : Char.ofNat 13 ∉ normalize_line true s := by
  rw [normalize_line, if_pos rfl]
  intro hmem
  rcases mem_joinNl _ _ hmem with h | ⟨seg, hseg, hc⟩
  · exact absurd h (by decide)
  · obtain ⟨seg0, hseg0, rfl⟩ := List.mem_map.mp hseg
    rcases mem_lineProc _ seg0 hc with h2 | h2
    · obtain ⟨raw, hraw, rfl⟩ := mem_rustLines seg0 _ hseg0
      exact phiPass_no_cr s (mem_splitOnNl _ _ raw hraw (mem_stripTrailCR _ raw h2))
    · exact absurd h2 (by decide)

/-- A Unicode whitespace character is not alphabetic. -/
theorem ws_not_alpha (c : Char) (h : rsIsWhitespace c = true) : rsIsAlphabetic c = false := by
  simp [rsIsWhitespace] at h
  simp only [rsIsAlphabetic, decide_eq_false_iff_not]
  omega

/-- A space or tab is not alphabetic. -/
theorem st_not_alpha (c : Char) (h : isSpaceTab c = true) : rsIsAlphabetic c = false := by
  simp [isSpaceTab] at h
  simp only [rsIsAlphabetic, decide_eq_false_iff_not]
  omega

/-- A space or tab is Unicode whitespace. -/
theorem st_ws (c : Char) (h : isSpaceTab c = true) : rsIsWhitespace c = true := by
  simp [isSpaceTab] at h
  simp only [rsIsWhitespace]
  rcases h with h | h <;> simp [List.contains, h]

/-- An alphabetic character is not a space or tab. -/
theorem alpha_not_st (c : Char) (h : rsIsAlphabetic c = true) : isSpaceTab c = false := by
  rcases hst : isSpaceTab c with _ | _
  · rfl
  · exact absurd h (by rw [st_not_alpha c hst]; exact Bool.false_ne_true)

/-- An alphabetic character is not whitespace. -/
theorem alpha_not_ws (c : Char) (h : rsIsAlphabetic c = true) : rsIsWhitespace c = false := by
  rcases hws : rsIsWhitespace c with _ | _
  · rfl
  · exact absurd h (by rw [ws_not_alpha c hws]; exact Bool.false_ne_true)

/-- An alphabetic character is not the newline. -/
theorem alpha_ne_lf (c : Char) (h : rsIsAlphabetic c = true) : c ≠ Char.ofNat 10 := by
  intro hc
  subst hc
  exact absurd h (by decide)

/-- A punctuation character is not alphabetic. -/
theorem punct_not_alpha (c : Char) (h : isPunct c = true) : rsIsAlphabetic c = false := by
  have hm : c ∈ punctuationChars := by
    rw [isPunct] at h
    exact List.mem_of_elem_eq_true h
  fin_cases hm <;> decide

/-- An apostrophe-class character is not alphabetic. -/
theorem apo_not_alpha (c : Char) (h : isApo c = true) : rsIsAlphabetic c = false := by
  have hm : c ∈ apostropheChars := by
    rw [isApo] at h
    exact List.mem_of_elem_eq_true h
  fin_cases hm <;> decide

/-- An alphabetic character is not punctuation. -/
theorem alpha_not_punct (c : Char) (h : rsIsAlphabetic c = true) : isPunct c = false := by
  rcases hp : isPunct c with _ | _
  · rfl
  · exact absurd h (by rw [punct_not_alpha c hp]; exact Bool.false_ne_true)

/-- An alphabetic character is not apostrophe-class. -/
theorem alpha_not_apo (c : Char) (h : rsIsAlphabetic c = true) : isApo c = false := by
  rcases ha : isApo c with _ | _
  · rfl
  · exact absurd h (by rw [apo_not_alpha c ha]; exact Bool.false_ne_true)

/-- The character-pass fixpoint condition for one character: not
punctuation, and if apostrophe-class then it is the canonical straight
apostrophe with alphabetic neighbours on both sides. -/
def okChar (p : Option Char) (c : Char) (n : Option Char) : Bool :=
  !(isPunct c) && (!(isApo c) || ((c == apoCh) && optAlpha p && optAlpha n))

/-- Every character of the list satisfies the fixpoint condition with its
actual neighbours; p is the character preceding the list. -/
def goodAux : Option Char → List Char → Bool
  | _, [] => true
  | p, c :: rest => okChar p c rest.head? && goodAux (some c) rest

/-- okChar only looks at the previous character through optAlpha. -/
theorem okChar_congr (p q : Option Char) (c : Char) (n : Option Char)
    (h : optAlpha p = optAlpha q) : okChar p c n = okChar q c n := by
  simp only [okChar, h]

/-- okChar of a non-apostrophe character is just the punctuation test. -/
theorem okChar_not_apo (p : Option Char) (c : Char) (n : Option Char)
    (h : isApo c = false) : okChar p c n = !(isPunct c) := by
  simp [okChar, h]

/-- okChar of an apostrophe-class character forces the canonical apostrophe
with alphabetic neighbours. -/
theorem okChar_apo_elim (p : Option Char) (c : Char) (n : Option Char)
    (h : okChar p c n = true) (ha : isApo c = true) :
    c = apoCh ∧ optAlpha p = true ∧ optAlpha n = true ∧ isPunct c = false := by
  rw [okChar, ha] at h
  simp only [Bool.not_true, Bool.false_or, Bool.and_eq_true, beq_iff_eq,
    Bool.not_eq_true'] at h
  exact ⟨h.2.1.1, h.2.1.2, h.2.2, h.1⟩

/-- A string good after a non-alphabetic character is good after any
character: only an apostrophe head could see the difference, and it would
need an alphabetic previous character. -/
theorem goodMono (l : List Char) (p q : Option Char)
    (h : goodAux p l = true) (hp : optAlpha p = false) : goodAux q l = true := by
  cases l with
  | nil => rfl
  | cons c rest =>
    rw [goodAux, Bool.and_eq_true] at h ⊢
    refine ⟨?_, h.2⟩
    rcases ha : isApo c with _ | _
    · rw [okChar_not_apo q c _ ha]
      rw [okChar_not_apo p c _ ha] at h
      exact h.1
    · obtain ⟨_, hpa, _, _⟩ := okChar_apo_elim p c _ h.1 ha
      rw [hp] at hpa
      exact absurd hpa Bool.false_ne_true

/-- Goodness only looks at the previous character through optAlpha. -/
theorem goodCongr (l : List Char) (p q : Option Char)
    (h : optAlpha p = optAlpha q) : goodAux p l = goodAux q l := by
  cases l with
  | nil => rfl
  | cons c rest =>
    rw [goodAux, goodAux, okChar_congr p q c _ h]

/-- On a good string the character pass is the identity. -/
theorem goodFix (l : List Char) : ∀ p : Option Char,
    goodAux p l = true → phiAux p l = l := by
  induction l with
  | nil => intro p _; rfl
  | cons c rest ih =>
    intro p h
    rw [goodAux, Bool.and_eq_true] at h
    obtain ⟨hok, hrest⟩ := h
    have hpn : isPunct c = false := by
      rcases hpc : isPunct c with _ | _
      · rfl
      · rw [okChar, hpc] at hok
        simp at hok
    rw [phiAux, if_neg (by simp [hpn])]
    rcases ha : isApo c with _ | _
    · rw [if_neg (by simp [ha]), ih (some c) hrest]
    · obtain ⟨hc, hpa, hna, _⟩ := okChar_apo_elim p c _ hok ha
      rw [if_pos rfl, if_pos ⟨hpa, hna⟩, ih (some c) hrest, hc]

/-- The character-pass output is good with respect to the same previous
character. -/
theorem phiGood (l : List Char) : ∀ p : Option Char,
    goodAux p (phiAux p l) = true := by
  induction l with
  | nil => intro p; rfl
  | cons c rest ih =>
    intro p
    rw [phiAux]
    by_cases hpc : isPunct c = true
    · rw [if_pos hpc]
      exact goodMono _ (some c) p (ih (some c)) (by
        simp only [optAlpha]
        exact punct_not_alpha c hpc)
    · rw [if_neg hpc]
      rcases ha : isApo c with _ | _
      · rw [if_neg (by simp [ha])]
        rw [goodAux, Bool.and_eq_true]
        refine ⟨?_, ih (some c)⟩
        rw [okChar_not_apo p c _ ha]
        simp [hpc]
      · have hca : optAlpha (some c) = false := by
          simp only [optAlpha]
          exact apo_not_alpha c ha
        rw [if_pos rfl]
        by_cases hneigh : optAlpha p ∧ optAlpha rest.head?
        · rw [if_pos hneigh]
          rw [goodAux, Bool.and_eq_true]
          constructor
          · rcases rest with _ | ⟨d, rest2⟩
            · exact absurd hneigh.2 (by decide)
            · have hd : rsIsAlphabetic d = true := hneigh.2
              rw [phiAux, if_neg (by simp [alpha_not_punct d hd]),
                if_neg (by simp [alpha_not_apo d hd])]
              rw [okChar]
              simp only [List.head?_cons]
              have h1 : isPunct apoCh = false := by decide
              have h2 : isApo apoCh = true := by decide
              have h3 : (apoCh == apoCh) = true := by decide
              rw [h1, h2, h3]
              have hp2 : optAlpha p = true := hneigh.1
              rw [hp2]
              simp only [optAlpha, hd]
              rfl
          · exact goodMono _ (some c) (some apoCh) (ih (some c)) hca
        · rw [if_neg hneigh]
          exact goodMono _ (some c) p (ih (some c)) hca

/-- The canonical apostrophe is not in the punctuation list. -/
theorem apoCh_not_punct : isPunct apoCh = false := by decide

/-- Whitespace collapsing preserves goodness (the previous character only
matters through optAlpha). -/
theorem collapse_good : ∀ (l : List Char) (p q : Option Char) (b : Bool),
    goodAux p l = true → optAlpha q = optAlpha p → goodAux q (collapseAux b l) = true := by
  intro l
  induction l with
  | nil => intro p q b _ _; rfl
  | cons c rest ih =>
    intro p q b h hq
    rw [goodAux, Bool.and_eq_true] at h
    obtain ⟨hok, hrest⟩ := h
    rw [collapseAux]
    by_cases hst : isSpaceTab c = true
    · rw [if_pos hst]
      have hca : optAlpha (some c) = false := by
        simp only [optAlpha]
        exact st_not_alpha c hst
      have hbase : goodAux (some c) (collapseAux true rest) = true :=
        ih (some c) (some c) true hrest rfl
      by_cases hb : b = true
      · rw [if_pos hb]
        exact goodMono _ (some c) q hbase hca
      · rw [if_neg hb]
        rw [goodAux, Bool.and_eq_true]
        refine ⟨?_, goodMono _ (some c) (some (Char.ofNat 32)) hbase hca⟩
        rw [okChar_not_apo q (Char.ofNat 32) _ (by decide)]
        decide
    · rw [if_neg hst]
      rw [goodAux, Bool.and_eq_true]
      refine ⟨?_, ih (some c) (some c) false hrest rfl⟩
      rcases ha : isApo c with _ | _
      · rw [okChar_not_apo q c _ ha]
        rw [okChar_not_apo p c _ ha] at hok
        exact hok
      · obtain ⟨hc, hpa, hna, hpn⟩ := okChar_apo_elim p c _ hok ha
        rcases rest with _ | ⟨d, rest2⟩
        · exact absurd hna (by decide)
        · have hd : rsIsAlphabetic d = true := hna
          rw [collapseAux, if_neg (by simp [alpha_not_st d hd])]
          rw [okChar, ha, hc]
          simp only [List.head?_cons, Bool.not_true, Bool.false_or, hq, hpa]
          simp [optAlpha, hd, apoCh_not_punct]

/-- Dropping leading whitespace preserves goodness after a non-alphabetic
previous character. -/
theorem dropWhile_good : ∀ (l : List Char) (p : Option Char),
    goodAux p l = true → optAlpha p = false →
    goodAux p (l.dropWhile rsIsWhitespace) = true := by
  intro l
  induction l with
  | nil => intro p _ _; rfl
  | cons c rest ih =>
    intro p h hp
    rw [goodAux, Bool.and_eq_true] at h
    obtain ⟨hok, hrest⟩ := h
    rw [List.dropWhile_cons]
    by_cases hw : rsIsWhitespace c = true
    · rw [if_pos hw]
      have hca : optAlpha (some c) = false := by
        simp only [optAlpha]
        exact ws_not_alpha c hw
      have := ih (some c) hrest hca
      rw [goodCongr _ p (some c) (by rw [hp, hca])]
      exact this
    · rw [if_neg hw]
      rw [goodAux, Bool.and_eq_true]
      exact ⟨hok, hrest⟩

/-- A list whose head is not whitespace trims to a nonempty list. -/
theorem trimEnd_ne_nil (c : Char) (rest : List Char) (hw : rsIsWhitespace c = false) :
    trimEnd (c :: rest) ≠ [] := by
  rw [trimEnd]
  rcases htr : trimEnd rest with _ | ⟨x, xs⟩
  · rw [if_neg (by simp [hw])]
    simp
  · simp

/-- When nonempty, the trim of a cons keeps the head. -/
theorem trimEnd_head (c : Char) (rest : List Char) (h : trimEnd (c :: rest) ≠ []) :
    (trimEnd (c :: rest)).head? = some c := by
  rw [trimEnd] at h ⊢
  rcases htr : trimEnd rest with _ | ⟨x, xs⟩
  · rw [htr] at h
    dsimp only at h ⊢
    by_cases hw : rsIsWhitespace c = true
    · rw [if_pos hw] at h
      exact absurd rfl h
    · rw [if_neg hw]
      rfl
  · rfl

/-- Trailing-whitespace removal preserves goodness. -/
theorem trim_good : ∀ (l : List Char) (p : Option Char),
    goodAux p l = true → goodAux p (trimEnd l) = true := by
  intro l
  induction l with
  | nil => intro p _; rfl
  | cons c rest ih =>
    intro p h
    rw [goodAux, Bool.and_eq_true] at h
    obtain ⟨hok, hrest⟩ := h
    rw [trimEnd]
    rcases htr : trimEnd rest with _ | ⟨x, xs⟩
    · by_cases hw : rsIsWhitespace c = true
      · rw [if_pos hw]
        rfl
      · rw [if_neg hw]
        rw [goodAux, Bool.and_eq_true]
        refine ⟨?_, rfl⟩
        rcases ha : isApo c with _ | _
        · rw [okChar_not_apo p c _ ha]
          rw [okChar_not_apo p c _ ha] at hok
          exact hok
        · obtain ⟨_, _, hna, _⟩ := okChar_apo_elim p c _ hok ha
          rcases rest with _ | ⟨d, rest2⟩
          · exact absurd hna (by decide)
          · have hd : rsIsAlphabetic d = true := hna
            exact absurd htr (trimEnd_ne_nil d rest2 (alpha_not_ws d hd))
    · rw [goodAux, Bool.and_eq_true]
      constructor
      · rcases ha : isApo c with _ | _
        · rw [okChar_not_apo p c _ ha]
          rw [okChar_not_apo p c _ ha] at hok
          exact hok
        · obtain ⟨hc, hpa, hna, hpn⟩ := okChar_apo_elim p c _ hok ha
          rcases rest with _ | ⟨d, rest2⟩
          · exact absurd hna (by decide)
          · have hd : rsIsAlphabetic d = true := hna
            have hne : trimEnd (d :: rest2) ≠ [] := by rw [htr]; simp
            have hhead := trimEnd_head d rest2 hne
            rw [htr] at hhead
            have hx : x = d := by
              simpa using hhead
            rw [okChar, ha, hc]
            simp only [List.head?_cons, Bool.not_true, Bool.false_or, hpa, hx]
            simp [optAlpha, hd, apoCh_not_punct]
      · have := ih (some c) hrest
        rw [htr] at this
        exact this

/-- splitOnNl of a cons headed by a non-newline character prepends that
character to the first segment. -/
theorem splitOnNl_cons_ne (d : Char) (rest : List Char) (hd : d ≠ Char.ofNat 10) :
    ∃ u us, splitOnNl (d :: rest) = (d :: u) :: us := by
  rw [splitOnNl, if_neg hd]
  rcases hsp : splitOnNl rest with _ | ⟨u, us⟩
  · exact absurd hsp (splitOnNl_ne_nil rest)
  · exact ⟨u, us, rfl⟩

/-- Splitting a good string at newlines: the first segment is good after
the same previous character and the later ones after none. -/
theorem split_good : ∀ (l : List Char) (p : Option Char), goodAux p l = true →
    ∃ s0 ss, splitOnNl l = s0 :: ss ∧ goodAux p s0 = true ∧
      ∀ seg ∈ ss, goodAux none seg = true := by
  intro l
  induction l with
  | nil =>
    intro p _
    exact ⟨[], [], rfl, rfl, by intro seg h; simp at h⟩
  | cons c rest ih =>
    intro p h
    rw [goodAux, Bool.and_eq_true] at h
    obtain ⟨hok, hrest⟩ := h
    obtain ⟨t0, ts, hsp, ht0, hts⟩ := ih (some c) hrest
    by_cases hc : c = Char.ofNat 10
    · refine ⟨[], splitOnNl rest, by rw [splitOnNl, if_pos hc], rfl, ?_⟩
      intro seg hseg
      rw [hsp] at hseg
      rcases List.mem_cons.mp hseg with rfl | h2
      · refine goodMono _ (some c) none ht0 ?_
        subst hc
        decide
      · exact hts seg h2
    · refine ⟨c :: t0, ts, ?_, ?_, hts⟩
      · rw [splitOnNl, if_neg hc, hsp]
      · rw [goodAux, Bool.and_eq_true]
        refine ⟨?_, ht0⟩
        rcases ha : isApo c with _ | _
        · rw [okChar_not_apo p c _ ha]
          rw [okChar_not_apo p c _ ha] at hok
          exact hok
        · obtain ⟨hcc, hpa, hna, hpn⟩ := okChar_apo_elim p c _ hok ha
          rcases rest with _ | ⟨d, rest2⟩
          · exact absurd hna (by decide)
          · have hd : rsIsAlphabetic d = true := hna
            obtain ⟨u, us, hu⟩ := splitOnNl_cons_ne d rest2 (alpha_ne_lf d hd)
            rw [hu] at hsp
            have ht0d : t0 = d :: u := (List.cons.injEq _ _ _ _ ▸ hsp).1.symm
            rw [okChar, ha, hcc, ht0d]
            simp only [List.head?_cons, Bool.not_true, Bool.false_or, hpa]
            simp [optAlpha, hd, apoCh_not_punct]

/-- Appending a newline and a good string to a good string keeps it good. -/
theorem good_append_lf : ∀ (a b : List Char) (p : Option Char),
    goodAux p a = true → goodAux none b = true →
    goodAux p (a ++ Char.ofNat 10 :: b) = true := by
  intro a
  induction a with
  | nil =>
    intro b p _ hb
    rw [List.nil_append, goodAux, Bool.and_eq_true]
    refine ⟨?_, goodMono _ none (some (Char.ofNat 10)) hb rfl⟩
    rw [okChar_not_apo p (Char.ofNat 10) _ (by decide)]
    decide
  | cons c a' ih =>
    intro b p h hb
    rw [goodAux, Bool.and_eq_true] at h
    obtain ⟨hok, ha'⟩ := h
    rw [List.cons_append, goodAux, Bool.and_eq_true]
    refine ⟨?_, ih b (some c) ha' hb⟩
    rcases a' with _ | ⟨d, a''⟩
    · rcases ha : isApo c with _ | _
      · rw [okChar_not_apo p c _ ha]
        rw [okChar_not_apo p c _ ha] at hok
        exact hok
      · obtain ⟨_, _, hna, _⟩ := okChar_apo_elim p c _ hok ha
        exact absurd hna (by decide)
    · simpa using hok

/-- The newline join of good segments is good. -/
theorem join_good : ∀ segs : List (List Char),
    (∀ seg ∈ segs, goodAux none seg = true) → goodAux none (joinNl segs) = true := by
  intro segs
  induction segs with
  | nil => intro _; rfl
  | cons a rest ih =>
    intro h
    rcases rest with _ | ⟨b, rest2⟩
    · have : joinNl [a] = a := by simp [joinNl]
      rw [this]
      exact h a (List.mem_cons_self a [])
    · have hj : joinNl (a :: b :: rest2) = a ++ Char.ofNat 10 :: joinNl (b :: rest2) := by
        rw [joinNl, joinNl, List.intersperse_cons_cons]
        simp [List.flatten_cons]
      rw [hj]
      refine good_append_lf a _ none (h a (List.mem_cons_self a _)) ?_
      exact ih (fun seg hseg => h seg (List.mem_cons_of_mem a hseg))

/-- The collapse fixpoint condition: no tab, and no space while already in
a run (so no two adjacent spaces and no leading space when b is true). -/
def collapsedB : Bool → List Char → Bool
  | _, [] => true
  | b, c :: rest =>
    if isSpaceTab c then (!b) && (c == Char.ofNat 32) && collapsedB true rest
    else collapsedB false rest

/-- The collapse output satisfies the collapse fixpoint condition. -/
theorem collapsed_of_collapse : ∀ (l : List Char) (b : Bool),
    collapsedB b (collapseAux b l) = true := by
  intro l
  induction l with
  | nil => intro b; rfl
  | cons c rest ih =>
    intro b
    rw [collapseAux]
    by_cases hst : isSpaceTab c = true
    · rw [if_pos hst]
      by_cases hb : b = true
      · subst hb
        rw [if_pos rfl]
        exact ih true
      · rw [if_neg hb]
        rw [collapsedB, if_pos (by decide)]
        have hb2 : b = false := by
          rcases b with _ | _
          · rfl
          · exact absurd rfl hb
        rw [hb2]
        simpa using ih true
    · rw [if_neg hst]
      rw [collapsedB, if_neg hst]
      exact ih false

/-- A string satisfying the collapse fixpoint condition is unchanged by
collapsing. -/
theorem collapse_of_collapsed : ∀ (l : List Char) (b : Bool),
    collapsedB b l = true → collapseAux b l = l := by
  intro l
  induction l with
  | nil => intro b _; rfl
  | cons c rest ih =>
    intro b h
    rw [collapsedB] at h
    rw [collapseAux]
    by_cases hst : isSpaceTab c = true
    · rw [if_pos hst] at h
      simp only [Bool.and_eq_true, Bool.not_eq_true', beq_iff_eq] at h
      obtain ⟨⟨hb, hc⟩, hrest⟩ := h
      rw [if_pos hst, if_neg (by rw [hb]; exact Bool.false_ne_true), ih true hrest, hc]
    · rw [if_neg hst] at h
      rw [if_neg hst, ih false h]

/-- The collapse condition with b true implies it with b false. -/
theorem collapsedB_mono (l : List Char) (h : collapsedB true l = true) :
    collapsedB false l = true := by
  cases l with
  | nil => rfl
  | cons c rest =>
    rw [collapsedB] at h ⊢
    by_cases hst : isSpaceTab c = true
    · rw [if_pos hst] at h
      simp at h
    · rw [if_neg hst] at h ⊢
      exact h

/-- Dropping leading whitespace preserves the collapse condition. -/
theorem collapsedB_dropWhile : ∀ (l : List Char) (b : Bool),
    collapsedB b l = true → collapsedB false (l.dropWhile rsIsWhitespace) = true := by
  intro l
  induction l with
  | nil => intro b _; rfl
  | cons c rest ih =>
    intro b h
    rw [collapsedB] at h
    rw [List.dropWhile_cons]
    by_cases hw : rsIsWhitespace c = true
    · rw [if_pos hw]
      by_cases hst : isSpaceTab c = true
      · rw [if_pos hst] at h
        simp only [Bool.and_eq_true] at h
        exact ih true h.2
      · rw [if_neg hst] at h
        exact ih false h
    · rw [if_neg hw]
      have hst : isSpaceTab c = false := by
        rcases hst : isSpaceTab c with _ | _
        · rfl
        · exact absurd (st_ws c hst) (by simp [hw])
      rw [collapsedB, if_neg (by simp [hst])]
      rw [if_neg (by simp [hst])] at h
      exact h

/-- Trailing-whitespace removal preserves the collapse condition. -/
theorem collapsedB_trimEnd : ∀ (l : List Char) (b : Bool),
    collapsedB b l = true → collapsedB b (trimEnd l) = true := by
  intro l
  induction l with
  | nil => intro b _; rfl
  | cons c rest ih =>
    intro b h
    rw [collapsedB] at h
    rw [trimEnd]
    rcases htr : trimEnd rest with _ | ⟨x, xs⟩
    · by_cases hw : rsIsWhitespace c = true
      · rw [if_pos hw]
        rfl
      · rw [if_neg hw]
        rw [collapsedB]
        by_cases hst : isSpaceTab c = true
        · exact absurd (st_ws c hst) (by simp [hw])
        · rw [if_neg hst]
          rfl
    · rw [collapsedB]
      by_cases hst : isSpaceTab c = true
      · rw [if_pos hst] at h ⊢
        simp only [Bool.and_eq_true] at h ⊢
        refine ⟨h.1, ?_⟩
        have := ih true h.2
        rw [htr] at this
        exact this
      · rw [if_neg hst] at h ⊢
        have := ih false h
        rw [htr] at this
        exact this

/-- Trailing-whitespace removal is idempotent. -/
theorem trimEnd_idem : ∀ l : List Char, trimEnd (trimEnd l) = trimEnd l := by
  intro l
  induction l with
  | nil => rfl
  | cons c rest ih =>
    rw [trimEnd]
    rcases htr : trimEnd rest with _ | ⟨x, xs⟩
    · by_cases hw : rsIsWhitespace c = true
      · rw [if_pos hw]
        rfl
      · rw [if_neg hw]
        rw [trimEnd]
        dsimp only [trimEnd]
        rw [if_neg hw]
    · rw [trimEnd]
      have hxx : trimEnd (x :: xs) = x :: xs := by
        rw [← htr, ih]
      rw [hxx]

/-- The head of a whitespace-drop is not whitespace. -/
theorem dropWhile_head_not_ws : ∀ (l : List Char) (d : Char) (t : List Char),
    l.dropWhile rsIsWhitespace = d :: t → rsIsWhitespace d = false := by
  intro l
  induction l with
  | nil => intro d t h; simp at h
  | cons c rest ih =>
    intro d t h
    rw [List.dropWhile_cons] at h
    by_cases hw : rsIsWhitespace c = true
    · rw [if_pos hw] at h
      exact ih d t h
    · rw [if_neg hw] at h
      rcases List.cons.injEq c rest d t ▸ h with ⟨rfl, _⟩
      simpa using hw

/-- A list headed by a non-whitespace character is unchanged by the
whitespace drop. -/
theorem dropWhile_noop (d : Char) (t : List Char) (hd : rsIsWhitespace d = false) :
    (d :: t).dropWhile rsIsWhitespace = d :: t := by
  rw [List.dropWhile_cons, if_neg (by simp [hd])]

/-- One processed line is a fixpoint of the per-line processing
(collapse whitespace, then trim). -/
theorem lineProc_idem (l : List Char) :
    rsTrim (collapseWs (rsTrim (collapseWs l))) = rsTrim (collapseWs l) := by
  have h1 : collapsedB false (collapseAux false l) = true := collapsed_of_collapse l false
  have h2 : collapsedB false ((collapseAux false l).dropWhile rsIsWhitespace) = true :=
    collapsedB_dropWhile _ false h1
  have h3 : collapsedB false (trimEnd ((collapseAux false l).dropWhile rsIsWhitespace)) = true :=
    collapsedB_trimEnd _ false h2
  have hy : rsTrim (collapseWs l) = trimEnd ((collapseAux false l).dropWhile rsIsWhitespace) := by
    rw [rsTrim, collapseWs]
  rw [hy]
  rw [collapseWs, collapse_of_collapsed _ false h3]
  rcases hdw : (collapseAux false l).dropWhile rsIsWhitespace with _ | ⟨d, t⟩
  · rfl
  · have hd : rsIsWhitespace d = false := dropWhile_head_not_ws _ d t hdw
    rcases hte : trimEnd (d :: t) with _ | ⟨x, xs⟩
    · rfl
    · rw [rsTrim]
      have hx : x = d := by
        have := trimEnd_head d t (by rw [hte]; simp)
        rw [hte] at this
        simpa using this
      have hfix : trimEnd (x :: xs) = x :: xs := by
        rw [← hte, trimEnd_idem]
      rw [hx] at hfix ⊢
      rw [dropWhile_noop d xs hd]
      exact hfix

/-- Splitting a newline-free string yields that single segment. -/
theorem splitOnNl_of_no_nl : ∀ l : List Char, Char.ofNat 10 ∉ l → splitOnNl l = [l] := by
  intro l
  induction l with
  | nil => intro _; rfl
  | cons c rest ih =>
    intro h
    have hcne : ¬c = Char.ofNat 10 := fun hc => h (hc ▸ List.mem_cons_self c rest)
    rw [splitOnNl, if_neg hcne, ih (fun hm => h (List.mem_cons_of_mem c hm))]

/-- Splitting past a newline-free prefix peels it off as one segment. -/
theorem splitOnNl_append : ∀ (a b : List Char), Char.ofNat 10 ∉ a →
    splitOnNl (a ++ Char.ofNat 10 :: b) = a :: splitOnNl b := by
  intro a
  induction a with
  | nil =>
    intro b _
    rw [List.nil_append, splitOnNl, if_pos rfl]
  | cons c a' ih =>
    intro b h
    have hcne : ¬c = Char.ofNat 10 := fun hc => h (hc ▸ List.mem_cons_self c a')
    rw [List.cons_append, splitOnNl, if_neg hcne,
      ih b (fun hm => h (List.mem_cons_of_mem c hm))]

/-- Splitting the newline join of newline-free segments recovers them. -/
theorem splitOnNl_joinNl : ∀ M : List (List Char), M ≠ [] →
    (∀ seg ∈ M, Char.ofNat 10 ∉ seg) → splitOnNl (joinNl M) = M := by
  intro M
  induction M with
  | nil => intro h _; exact absurd rfl h
  | cons a rest ih =>
    intro _ hfree
    rcases rest with _ | ⟨b, rest2⟩
    · have : joinNl [a] = a := by simp [joinNl]
      rw [this, splitOnNl_of_no_nl a (hfree a (List.mem_cons_self a []))]
    · have hj : joinNl (a :: b :: rest2) = a ++ Char.ofNat 10 :: joinNl (b :: rest2) := by
        rw [joinNl, joinNl, List.intersperse_cons_cons]
        simp [List.flatten_cons]
      rw [hj, splitOnNl_append a _ (hfree a (List.mem_cons_self a _)),
        ih (by simp) (fun seg hseg => hfree seg (List.mem_cons_of_mem a hseg))]

/-- The normalized string (with line breaks preserved) is good: the
character pass leaves it unchanged. -/
theorem norm_good (s : List Char) : goodAux none (normalize_line true s) = true := by
  rw [normalize_line, if_pos rfl]
  refine join_good _ ?_
  intro seg hseg
  obtain ⟨seg0, hseg0, rfl⟩ := List.mem_map.mp hseg
  obtain ⟨raw, hraw, rfl⟩ := mem_rustLines seg0 _ hseg0
  have hrawcr : Char.ofNat 13 ∉ raw :=
    fun hcr => phiPass_no_cr s (mem_splitOnNl _ _ raw hraw hcr)
  rw [stripTrailCR_noop raw hrawcr]
  have hgood : goodAux none raw = true := by
    obtain ⟨s0, ss, hsp, hs0, hss⟩ :=
      split_good (phiPass (fixNewlines s)) none (phiGood (fixNewlines s) none)
    rw [hsp] at hraw
    rcases List.mem_cons.mp hraw with rfl | h2
    · exact hs0
    · exact hss raw h2
  rw [rsTrim, collapseWs]
  refine trim_good _ none (dropWhile_good _ none ?_ rfl)
  exact collapse_good raw none none false hgood rfl

/-- The normalized string holds no newline inside its line segments. -/
theorem norm_seg_no_nl (s : List Char) (seg : List Char)
    (h : seg ∈ (rustLines (phiPass (fixNewlines s))).map (fun l => rsTrim (collapseWs l))) :
    Char.ofNat 10 ∉ seg := by
  obtain ⟨seg0, hseg0, rfl⟩ := List.mem_map.mp h
  obtain ⟨raw, hraw, rfl⟩ := mem_rustLines seg0 _ hseg0
  intro hnl
  rcases mem_lineProc _ _ hnl with h2 | h2
  · exact splitOnNl_no_nl _ raw hraw (mem_stripTrailCR _ raw h2)
  · exact absurd h2 (by decide)

/-- C8: amended idempotence. normalize_line with preserve_line_breaks set
is idempotent on every input whose normalized form does not end in a
newline (the original claim fails exactly because a trailing newline is
consumed by the lines iterator on the second pass). -/
theorem C8_idempotence_amended : ∀ s : List Char,
    (normalize_line true s).getLast? ≠ some (Char.ofNat 10) →
    normalize_line true (normalize_line true s) = normalize_line true s := by
  intro s hlast
  have hnocr := normalize_no_cr s
  by_cases ht0 : normalize_line true s = []
  · rw [ht0]
    decide
  · have hfix : fixNewlines (normalize_line true s) = normalize_line true s :=
      fixNewlines_noop _ hnocr
    have hphi : phiPass (normalize_line true s) = normalize_line true s :=
      goodFix _ none (norm_good s)
    have hM : normalize_line true s =
        joinNl ((rustLines (phiPass (fixNewlines s))).map (fun l => rsTrim (collapseWs l))) := by
      rw [normalize_line, if_pos rfl]
    have hMne : (rustLines (phiPass (fixNewlines s))).map (fun l => rsTrim (collapseWs l)) ≠ [] := by
      intro h0
      apply ht0
      rw [hM, h0]
      rfl
    have hrl : rustLines (normalize_line true s) =
        (rustLines (phiPass (fixNewlines s))).map (fun l => rsTrim (collapseWs l)) := by
      rw [rustLines_raw _ ht0 hnocr, if_neg hlast, hM]
      exact splitOnNl_joinNl _ hMne (norm_seg_no_nl s)
    have hmapf : (((rustLines (phiPass (fixNewlines s))).map
          (fun l => rsTrim (collapseWs l))).map (fun l => rsTrim (collapseWs l))) =
        (rustLines (phiPass (fixNewlines s))).map (fun l => rsTrim (collapseWs l)) := by
      rw [List.map_map]
      refine List.map_congr_left ?_
      intro l _
      exact lineProc_idem l
    nth_rewrite 1 [normalize_line]
    rw [if_pos rfl, hfix, hphi, hrl, hmapf, ← hM]

/-- Witness for the amended C8 theorem at a concrete input. -/
theorem C8_idempotence_amended_witness :
    (normalize_line true [Char.ofNat 97, Char.ofNat 10, Char.ofNat 98]).getLast? ≠
      some (Char.ofNat 10) ∧
    normalize_line true (normalize_line true [Char.ofNat 97, Char.ofNat 10, Char.ofNat 98]) =
      normalize_line true [Char.ofNat 97, Char.ofNat 10, Char.ofNat 98] :=
  ⟨by decide, C8_idempotence_amended _ (by decide)⟩
